import Mathlib

/-
  Verification development for the Notes-Summarizer document structuring
  engine.  The Python sources `pdf_extraction.py` and `text_processing.py`
  are shallowly embedded below: Python strings become `String` (viewed as
  lists of characters), Python floats become exact rationals, with
  `math.sqrt` modelled as `Real.sqrt`; Python lists become `List`; the
  insertion-ordered Python dict becomes an association list updated in
  place.  The external collaborators (the PyMuPDF span provider and the
  NLTK sentence tokenizer) enter as parameters, as the specification
  treats them as black boxes at the interface.
-/

-- Rational arithmetic in Batteries is sealed against unfolding; re-enable
-- unfolding locally so concrete rational computations can be settled by
-- kernel reduction.
attribute [local semireducible] Rat.add Rat.sub Rat.mul Rat.inv Rat.ofScientific

namespace NotesSummarizer

/-! ### Python string primitives (ASCII model, over `List Char`) -/

/-- ASCII whitespace: the characters handled by Python strip and by the
whitespace class of the regexes in the sources (ASCII fragment). -/
def isSpaceChar (c : Char) : Bool :=
  c = ' ' || c = '\t' || c = '\n' || c = '\r' || c = '\x0b' || c = '\x0c'

/-- Drop the longest suffix all of whose characters satisfy the test. -/
def dropWhileEnd (p : Char → Bool) (l : List Char) : List Char :=
  (l.reverse.dropWhile p).reverse

/-- Strip characters satisfying the test from both ends. -/
def stripCharsBy (p : Char → Bool) (l : List Char) : List Char :=
  dropWhileEnd p (l.dropWhile p)

/-- Python str.strip with no argument (ASCII whitespace model). -/
def pyStrip (s : String) : String := String.mk (stripCharsBy isSpaceChar s.data)

/-- Python str.rstrip with no argument. -/
def pyRstrip (s : String) : String := String.mk (dropWhileEnd isSpaceChar s.data)

/-- Character class of Python strip applied to the two angle brackets. -/
def isAngleChar (c : Char) : Bool := c = '<' || c = '>'

/-- Python line.strip of both angle brackets, as in split_into_topics. -/
def stripAngles (s : String) : String := String.mk (stripCharsBy isAngleChar s.data)

/-- Python str.upper (ASCII model, Char.toUpper on each character). -/
def pyUpper (s : String) : String := String.mk (s.data.map Char.toUpper)

/-- Python text.split on a newline, over the character list. -/
def splitNlChars : List Char → List (List Char)
  | [] => [[]]
  | c :: cs =>
    if c = '\n' then [] :: splitNlChars cs
    else
      match splitNlChars cs with
      | f :: r => (c :: f) :: r
      | [] => [[c]]

/-- Python text.split("\n"). -/
def pySplitNl (s : String) : List String := (splitNlChars s.data).map String.mk

/-- Python "".join(parts). -/
def concatAll : List String → String
  | [] => ""
  | s :: rest => s ++ concatAll rest

/-- Python " ".join(parts). -/
def pySpaceJoin : List String → String
  | [] => ""
  | [s] => s
  | s :: t :: rest => s ++ " " ++ pySpaceJoin (t :: rest)

/-! ### Font statistics accumulator (class Welford, pdf_extraction.py 38-55) -/

/-- Welford online accumulator state, in exact rational arithmetic. -/
structure Welford where
  n : ℕ
  mean : ℚ
  m2 : ℚ
deriving DecidableEq

/-- Initial accumulator: n = 0, mean = 0.0, m2 = 0.0. -/
def Welford.init : Welford := ⟨0, 0, 0⟩

/-- add(x): n += 1; delta = x - mean; mean += delta/n; delta2 = x - mean;
m2 += delta * delta2. -/
def Welford.add (w : Welford) (x : ℚ) : Welford :=
  let n : ℕ := w.n + 1
  let delta : ℚ := x - w.mean
  let mean : ℚ := w.mean + delta / (n : ℚ)
  let delta2 : ℚ := x - mean
  { n := n, mean := mean, m2 := w.m2 + delta * delta2 }

/-- variance(): m2 / n if n > 0 else 0.0. -/
def Welford.variance (w : Welford) : ℚ :=
  if 0 < w.n then w.m2 / (w.n : ℚ) else 0

/-- pstdev(): math.sqrt(variance()), in the real numbers. -/
noncomputable def Welford.pstdev (w : Welford) : ℝ :=
  Real.sqrt ((w.variance : ℚ) : ℝ)

/-- Feeding a whole list of font sizes through the accumulator. -/
def welfordFold (xs : List ℚ) : Welford := xs.foldl Welford.add Welford.init

/-- Direct batch arithmetic mean, the spec-side formula the incremental
accumulator is compared against (0 for the empty list). -/
def batchMean (xs : List ℚ) : ℚ := xs.sum / (xs.length : ℚ)

/-- Direct batch population variance, the spec-side comparison formula
(0 for the empty list). -/
def batchPVar (xs : List ℚ) : ℚ :=
  ((xs.map (fun x => (x - batchMean xs) ^ 2)).sum) / (xs.length : ℚ)

/-- Heading threshold (pdf_extraction.py 101-104): mean + 0.8 * stdev, the
stdev factor being computed only when at least two samples were seen. -/
noncomputable def headingThreshold (w : Welford) : ℝ :=
  (w.mean : ℝ) + 0.8 * (if 1 < w.n then w.pstdev else 0)

/-! ### Topic demultiplexer (split_into_topics, text_processing.py 15-50) -/

/-- The dash characters of the dash-normalisation regex in
text_processing.py: hyphen and en dash. -/
def isDashChar (c : Char) : Bool := c = '-' || c = '–'

/-- re.sub of the pattern of optional whitespace, one or more dashes, and
optional whitespace by a colon and a space, scanning left to right over
non-overlapping matches.  Written with explicit fuel (the length of the
list bounds the number of steps) so that it evaluates by kernel
reduction. -/
def dashColonFuel : ℕ → List Char → List Char
  | 0, _ => []
  | _ + 1, [] => []
  | fuel + 1, c :: cs =>
    let r1 := (c :: cs).dropWhile isSpaceChar
    match r1.head? with
    | some d =>
      if isDashChar d then
        ':' :: ' ' :: dashColonFuel fuel ((r1.dropWhile isDashChar).dropWhile isSpaceChar)
      else c :: dashColonFuel fuel cs
    | none => c :: dashColonFuel fuel cs

/-- Collapse every whitespace run to a single space (re.sub of one-or-more
whitespace by one space); the flag records whether the previous character
was whitespace. -/
def collapseWsAux : Bool → List Char → List Char
  | _, [] => []
  | prev, c :: cs =>
    if isSpaceChar c then
      if prev then collapseWsAux true cs else ' ' :: collapseWsAux true cs
    else c :: collapseWsAux false cs

/-- Whitespace-run collapsing over a character list. -/
def collapseWsChars (l : List Char) : List Char := collapseWsAux false l

/-- flush_buffer(topic, buf) of split_into_topics: join the buffered lines
with spaces, collapse whitespace and strip, normalise dash runs to colons,
and hand the block to the sentence tokenizer.  The NLTK tokenizer is the
abstract parameter tok, an external collaborator of the engine. -/
def flushBuffer (tok : String → List String) (buf : List String) : List String :=
  if buf = [] then []
  else
    let block := pySpaceJoin buf
    let block := pyStrip (String.mk (collapseWsChars block.data))
    let block := String.mk (dashColonFuel block.data.length block.data)
    tok block

/-- re.match of the anchored topic-header pattern: the line starts with an
opening angle bracket, ends with a closing one, and the dot of the pattern
cannot cross a newline.  (In the engine the tested string is always a
whitespace-stripped line of a newline split, so it cannot end in a
newline either.) -/
def isMarkerLine (s : String) : Bool :=
  match s.data with
  | [] => false
  | c :: cs =>
    decide (c = '<') && decide (cs ≠ []) && decide (cs.getLast? = some '>')
      && !((c :: cs).any (fun x => decide (x = '\n')))

/-- Processing of one raw line by split_into_topics: strip it, test the
topic-header pattern, and on a match produce the topic name: the line with
all outer angle brackets stripped, then whitespace-stripped, with the
placeholder name when that leaves nothing. -/
def markerNameOf (raw : String) : Option String :=
  let line := pyStrip raw
  if isMarkerLine line then
    let nm := pyStrip (stripAngles line)
    some (if nm = "" then "Unnamed Topic" else nm)
  else none

/-- The topics dict of split_into_topics, as an insertion-ordered
association list. -/
abbrev TopicMap := List (String × List String)

/-- Python dict assignment of key k to value v: update in place when the
key is present (keeping its position), else append at the end. -/
def setEntry (m : TopicMap) (k : String) (v : List String) : TopicMap :=
  if m.any (fun e => decide (e.1 = k)) then
    m.map (fun e => if e.1 = k then (k, v) else e)
  else m ++ [(k, v)]

/-- Python list extend on the value held at key k.  Keys are unique in
every map the engine builds; a missing key would be a Python KeyError and
cannot occur in the engine, the embedding leaves the map unchanged. -/
def extendEntry (m : TopicMap) (k : String) (v : List String) : TopicMap :=
  m.map (fun e => if e.1 = k then (e.1, e.2 ++ v) else e)

/-- First binding of a key, if any. -/
def getEntry (m : TopicMap) (k : String) : Option (List String) :=
  match m with
  | [] => none
  | e :: es => if e.1 = k then some e.2 else getEntry es k

/-- The key sequence of the map, in insertion order. -/
def keysOf (m : TopicMap) : List String := m.map Prod.fst

/-- Loop state of split_into_topics: topics, current_topic, buffer. -/
structure DemuxSt where
  topics : TopicMap
  current : Option String
  buffer : List String

/-- The flush guarded by current_topic and buffer, shared by the loop body
and the trailing flush of split_into_topics. -/
def flushInto (tok : String → List String) (topics : TopicMap)
    (cur : Option String) (buf : List String) : TopicMap :=
  match cur with
  | some ct => if buf ≠ [] then extendEntry topics ct (flushBuffer tok buf) else topics
  | none => topics

/-- One iteration of the line loop of split_into_topics. -/
def demuxStep (tok : String → List String) (st : DemuxSt) (raw : String) : DemuxSt :=
  match markerNameOf raw with
  | some nm =>
    ⟨setEntry (flushInto tok st.topics st.current st.buffer) nm [], some nm, []⟩
  | none =>
    if pyStrip raw ≠ "" then ⟨st.topics, st.current, st.buffer ++ [pyStrip raw]⟩ else st

/-- The line loop of split_into_topics. -/
def runDemux (tok : String → List String) (st : DemuxSt) (ls : List String) : DemuxSt :=
  ls.foldl (demuxStep tok) st

/-- The trailing flush of split_into_topics. -/
def finalizeDemux (tok : String → List String) (st : DemuxSt) : TopicMap :=
  flushInto tok st.topics st.current st.buffer

/-- split_into_topics over an already split list of lines. -/
def splitTopicsList (tok : String → List String) (ls : List String) : TopicMap :=
  finalizeDemux tok (runDemux tok ⟨[], none, []⟩ ls)

/-- split_into_topics(text): split on newlines and run the topic loop. -/
def splitIntoTopics (tok : String → List String) (text : String) : TopicMap :=
  splitTopicsList tok (pySplitNl text)

/-- A concrete one-sentence-per-block tokenizer used to instantiate the
external sentence tokenizer on concrete runs. -/
def tok0 : String → List String := fun s => [s]

/-- Interleaving of key insertions into an existing key order: the key
order produced by a sequence of dict insertions starting from keys ks. -/
def keysAfter : List String → List String → List String
  | ks, [] => ks
  | ks, n :: ns => keysAfter (if n ∈ ks then ks else ks ++ [n]) ns

/-! ### Paragraph reconstructor (join_paragraph_lines, pdf_extraction.py 152-206) -/

/-- The bullet glyph class of the list pattern compiled inside
join_paragraph_lines (pdf_extraction.py 158): bullet, triangular bullet,
white bullet, one-dot leader, asterisk.  This local pattern has no hyphen;
only the unused module-level pattern at line 11 has one. -/
def bulletGlyph (c : Char) : Bool :=
  c = '•' || c = '‣' || c = '◦' || c = '․' || c = '*'

/-- The part of the list pattern after the optional whitespace: one bullet
glyph or a digit run followed by a dot or closing parenthesis, then at
least one whitespace character. -/
def bulletCore : List Char → Bool
  | [] => false
  | c :: rest =>
    if bulletGlyph c then
      match rest with
      | w :: _ => isSpaceChar w
      | [] => false
    else if c.isDigit then
      match rest.dropWhile Char.isDigit with
      | p :: w :: _ => (decide (p = '.') || decide (p = ')')) && isSpaceChar w
      | _ => false
    else false

/-- The bullet-or-numbered-list pattern of join_paragraph_lines: optional
whitespace, then the core pattern. -/
def bulletStart (cs : List Char) : Bool := bulletCore (cs.dropWhile isSpaceChar)

/-- The bullet pattern on a string. -/
def bulletMatch (s : String) : Bool := bulletStart s.data

/-- clean_line (pdf_extraction.py 145-150): delete the bullet glyphs,
normalise en and em dashes to hyphens, collapse whitespace runs, strip. -/
def cleanLine (s : String) : String :=
  let l1 := s.data.filter (fun c => !(bulletGlyph c))
  let l2 := l1.map (fun c => if c = '–' || c = '—' then '-' else c)
  String.mk (stripCharsBy isSpaceChar (collapseWsChars l2))

/-- Insertion into a sorted list, for the sort underlying the median. -/
def insertSorted (x : ℚ) : List ℚ → List ℚ
  | [] => [x]
  | y :: ys => if x ≤ y then x :: y :: ys else y :: insertSorted x ys

/-- Insertion sort of rationals. -/
def sortQ (l : List ℚ) : List ℚ := l.foldr insertSorted []

/-- statistics.median: the middle element of the sorted list for odd
length, the mean of the two middle elements for even length. -/
def medianQ (l : List ℚ) : ℚ :=
  let s := sortQ l
  let n := s.length
  if n % 2 = 1 then s.getD (n / 2) 0
  else (s.getD (n / 2 - 1) 0 + s.getD (n / 2) 0) / 2

/-- A reflowed paragraph or list unit. -/
structure Para where
  text : String
  is_bullet : Bool
deriving DecidableEq

/-- Bullet classification of one line inside join_paragraph_lines
(pdf_extraction.py 164-170): the list pattern matched against the
right-stripped original line, or an indent exceeding the block median by
more than 10 units. -/
def isBulletLn (median : ℚ) (origLn : String) (indent : ℚ) : Bool :=
  bulletMatch (pyRstrip origLn) || decide (indent - median > 10)

/-- Loop state of join_paragraph_lines: emitted units, paragraph buffer. -/
structure JoinSt where
  out : List Para
  buf : String
deriving DecidableEq

/-- endswith of one of the three terminal punctuation characters. -/
def endsWithTerm (s : String) : Bool :=
  match s.data.getLast? with
  | some c => c = '.' || c = '!' || c = '?'
  | none => false

/-- endswith of a hyphen. -/
def endsWithHyphen (s : String) : Bool :=
  match s.data.getLast? with
  | some c => c = '-'
  | none => false

/-- Python buf[:-1]. -/
def strDropLast (s : String) : String := String.mk s.data.dropLast

/-- islower() of the first character (ASCII model). -/
def startsLower (s : String) : Bool :=
  match s.data with
  | c :: _ => c.isLower
  | [] => false

/-- The flush of the running buffer on terminal punctuation
(pdf_extraction.py 199-202), applied after every non-bullet line. -/
def finishBuf (out : List Para) (b : String) : JoinSt :=
  if endsWithTerm b then ⟨out ++ [⟨b, false⟩], ""⟩ else ⟨out, b⟩

/-- One iteration of the line loop of join_paragraph_lines
(pdf_extraction.py 164-202). -/
def joinStep (median : ℚ) (st : JoinSt) (p : String × ℚ) : JoinSt :=
  let stripped := pyRstrip p.1
  let isB := isBulletLn median p.1 p.2
  let ln := cleanLine stripped
  if ln = "" then st
  else if isB then
    ⟨st.out ++ (if st.buf ≠ "" then [⟨st.buf, false⟩] else []) ++ [⟨ln, true⟩], ""⟩
  else if st.buf = "" then finishBuf st.out ln
  else if endsWithHyphen st.buf then finishBuf st.out (strDropLast st.buf ++ ln)
  else if startsLower ln then finishBuf st.out (st.buf ++ " " ++ ln)
  else finishBuf (st.out ++ [⟨st.buf, false⟩]) ln

/-- join_paragraph_lines (pdf_extraction.py 152-206): the median of the
indents (0 for an empty block), the line loop, and the trailing flush. -/
def joinParagraphLines (lws : List (String × ℚ)) : List Para :=
  let median := if lws = [] then 0 else medianQ (lws.map Prod.snd)
  let fin := lws.foldl (joinStep median) ⟨[], ""⟩
  fin.out ++ (if fin.buf ≠ "" then [⟨fin.buf, false⟩] else [])

/-! ### Marker formatter (pdf_extraction.py 208-233) -/

/-- isalnum() of the last character (ASCII model). -/
def lastAlnum (s : String) : Bool :=
  match s.data.getLast? with
  | some c => c.isAlphanum
  | none => false

/-- The trailing-period normalisation of the formatter (pdf_extraction.py
224-225): append a period when the text is non-empty and its last
character is alphanumeric. -/
def withPeriod (t : String) : String := if lastAlnum t then t ++ "." else t

/-- The output parts the formatter emits for one reflowed unit
(pdf_extraction.py 217-232): nothing for a short non-bullet unit, a
dash-prefixed line for a bullet, a paragraph plus blank line otherwise. -/
def renderUnitParts (p : Para) : List String :=
  if p.text.length < 30 && !p.is_bullet then []
  else if p.is_bullet then ["- ", withPeriod p.text, "\n"]
  else [withPeriod p.text, "\n\n"]

/-! ### Block segmentation and noise filter (pdf_extraction.py 107-142) -/

/-- A structured-content item: the segmenter stores either the string made
of the tag "<TOPIC>" followed by the heading text, or the list of (text,
indent) pairs of a content block.  The topic constructor carries the text
after the tag. -/
inductive Item where
  | topic : String → Item
  | content : List (String × ℚ) → Item
deriving DecidableEq

/-- content_lines (pdf_extraction.py 132): the non-blank lines of a
content block. -/
def neLines (cl : List (String × ℚ)) : List String :=
  (cl.filter (fun q => pyStrip q.1 ≠ "")).map Prod.fst

/-- The retention test of the noise filter (pdf_extraction.py 133-138):
the space-join of the non-blank lines reaches 80 characters with at least
2 such lines, or there are at least 6 such lines. -/
def keepContent (cl : List (String × ℚ)) : Bool :=
  (decide ((pySpaceJoin (neLines cl)).length ≥ 80) && decide ((neLines cl).length ≥ 2))
    || decide ((neLines cl).length ≥ 6)

/-- The noise-filter loop (pdf_extraction.py 124-142).  At a topic item the
index advances by two: when the item after it is a content block, the pair
is kept or dropped by keepContent; when it is another topic or the list
ends there, the increment skips that item as well.  Non-topic items pass
through unchanged. -/
def filterContent : List Item → List Item
  | [] => []
  | Item.content cl :: rest => Item.content cl :: filterContent rest
  | [Item.topic _] => []
  | Item.topic _ :: Item.topic _ :: rest => filterContent rest
  | Item.topic t :: Item.content cl :: rest =>
    if keepContent cl then Item.topic t :: Item.content cl :: filterContent rest
    else filterContent rest

/-- The seven characters of the topic tag. -/
def topicTag : List Char := ['<', 'T', 'O', 'P', 'I', 'C', '>']

/-- Python item.replace applied to the constant tag and the empty string:
remove every occurrence of the tag scanning left to right, with fuel (the
length of the list bounds the number of steps) for kernel reduction. -/
def removeTagFuel : ℕ → List Char → List Char
  | 0, _ => []
  | _ + 1, [] => []
  | fuel + 1, c :: cs =>
    if (c :: cs).take 7 = topicTag then removeTagFuel fuel ((c :: cs).drop 7)
    else c :: removeTagFuel fuel cs

/-- The uppercased topic name the formatter derives from a heading item
(pdf_extraction.py 211-212): the stored string "<TOPIC>" ++ s with the tag
removed by str.replace, stripped, then uppercased. -/
def topicNameOf (s : String) : String :=
  pyUpper (pyStrip (String.mk
    (removeTagFuel (topicTag ++ s.data).length (topicTag ++ s.data))))

/-- The lines_with_indent filter at pdf_extraction.py 215: non-blank lines
of the block. -/
def blockLines (cl : List (String × ℚ)) : List (String × ℚ) :=
  cl.filter (fun q => pyStrip q.1 ≠ "")

/-- The output parts the formatter emits for one structured item
(pdf_extraction.py 209-232). -/
def itemParts : Item → List String
  | Item.topic s => ["\n<" ++ topicNameOf s ++ ">\n"]
  | Item.content cl => (joinParagraphLines (blockLines cl)).flatMap renderUnitParts

/-- The formatter output: ''.join of all emitted parts. -/
def formatOutput (items : List Item) : String :=
  concatAll (items.flatMap itemParts)

/-- The headings of a structured sequence, in document order. -/
def headingsOfItems (items : List Item) : List String :=
  items.filterMap (fun i => match i with
    | Item.topic s => some s
    | Item.content _ => none)

/-- One emitted chunk per reflowed unit: its parts concatenated. -/
def unitChunk (p : Para) : String := concatAll (renderUnitParts p)

/-- The emitted chunk strings of one item: each chunk is empty or ends in
a newline, which drives the line decomposition of the output. -/
def itemChunks : Item → List String
  | Item.topic s => ["\n<" ++ topicNameOf s ++ ">\n"]
  | Item.content cl => (joinParagraphLines (blockLines cl)).map unitChunk

/-- All chunks of a structured sequence. -/
def chunksOf (items : List Item) : List String := items.flatMap itemChunks

/-! ### Segmentation and extraction pass (pdf_extraction.py 57-121) -/

/-- One extracted line: page index, joined span text, maximum span font
size, left-most x coordinate. -/
structure LineRec where
  page : ℕ
  text : String
  size : ℚ
  minX : ℚ
deriving DecidableEq

/-- The heading test of pdf_extraction.py 108: font size at least the
threshold and text longer than 2 characters. -/
def IsHeadingLine (T : ℝ) (l : LineRec) : Prop :=
  T ≤ ((l.size : ℚ) : ℝ) ∧ 2 < l.text.length

/-- Segmenter state: structured_content and current_content. -/
structure SegSt where
  out : List Item
  cur : List (String × ℚ)

open Classical in
/-- One iteration of the segmentation loop (pdf_extraction.py 107-115). -/
noncomputable def segStep (T : ℝ) (st : SegSt) (l : LineRec) : SegSt :=
  if IsHeadingLine T l then
    ⟨st.out ++ (if st.cur ≠ [] then [Item.content st.cur] else []) ++ [Item.topic l.text], []⟩
  else ⟨st.out, st.cur ++ [(l.text, l.minX)]⟩

/-- structured_content after the segmentation loop and the trailing flush
(pdf_extraction.py 107-119). -/
noncomputable def buildStructured (T : ℝ) (ls : List LineRec) : List Item :=
  let fin := ls.foldl (segStep T) ⟨[], []⟩
  fin.out ++ (if fin.cur ≠ [] then [Item.content fin.cur] else [])

/-- Extraction input at line granularity: per-line text (the intra-line
span joining of pdf_extraction.py 83-89 happens upstream in the external
provider model), maximum span font size, left x coordinate. -/
structure PageLine where
  text : String
  size : ℚ
  minX : ℚ
deriving DecidableEq

/-- The page sampling step (pdf_extraction.py 66): max(1, total // sample),
with Python floor division. -/
def stepOf (samplePages totalPages : ℕ) : ℕ := max 1 (totalPages / samplePages)

/-- Membership of a page index in sample_set = set(range(0, total, step)),
built only for a non-empty document (pdf_extraction.py 64-67). -/
def inSample (samplePages totalPages p : ℕ) : Bool :=
  decide (0 < totalPages) && decide (p < totalPages)
    && decide (p % stepOf samplePages totalPages = 0)

/-- The per-line body of the extraction loop (pdf_extraction.py 73-95):
blank lines are skipped; the font accumulator is fed when not in fast mode
or when the page is sampled; every kept line joins page_lines. -/
def passLines (fast : Bool) (sp total pidx : ℕ) :
    List PageLine → Welford × List LineRec → Welford × List LineRec
  | [], st => st
  | l :: rest, st =>
    if l.text = "" then passLines fast sp total pidx rest st
    else
      passLines fast sp total pidx rest
        ((if !fast || inSample sp total pidx then st.1.add l.size else st.1),
         st.2 ++ [⟨pidx, l.text, l.size, l.minX⟩])

/-- The page loop of the extraction pass (pdf_extraction.py 69). -/
def passPages (fast : Bool) (sp total : ℕ) :
    ℕ → List (List PageLine) → Welford × List LineRec → Welford × List LineRec
  | _, [], st => st
  | pidx, pg :: rest, st =>
    passPages fast sp total (pidx + 1) rest (passLines fast sp total pidx pg st)

/-- The whole extraction pass over a document given as pages of lines. -/
def extractPass (fast : Bool) (sp : ℕ) (doc : List (List PageLine)) :
    Welford × List LineRec :=
  passPages fast sp doc.length 0 doc (Welford.init, [])

/-- The structuring pipeline after the document is read (pdf_extraction.py
97-233): empty output when no font size was accumulated, otherwise
segmentation with the frozen threshold, noise filter, reflow, formatting. -/
noncomputable def extractTopicsCore (fast : Bool) (sp : ℕ)
    (doc : List (List PageLine)) : String :=
  let r := extractPass fast sp doc
  if r.1.n = 0 then ""
  else formatOutput (filterContent (buildStructured (headingThreshold r.1) r.2))

/-- page_lines rebuilt directly: the non-blank lines of one page tagged
with the page index. -/
def pageRecs (pidx : ℕ) (pg : List PageLine) : List LineRec :=
  (pg.filter (fun l => l.text ≠ "")).map (fun l => ⟨pidx, l.text, l.size, l.minX⟩)

/-- page_lines of a whole document from a starting page index. -/
def docRecsFrom (pidx : ℕ) : List (List PageLine) → List LineRec
  | [] => []
  | pg :: rest => pageRecs pidx pg ++ docRecsFrom (pidx + 1) rest

/-- The font sizes fed to the accumulator, page by page. -/
def fedFrom (fast : Bool) (sp total : ℕ) : ℕ → List (List PageLine) → List ℚ
  | _, [] => []
  | pidx, pg :: rest =>
    (if !fast || inSample sp total pidx then (pageRecs pidx pg).map LineRec.size else [])
      ++ fedFrom fast sp total (pidx + 1) rest

/-- Folding further samples into an existing accumulator. -/
def welfordMore (w : Welford) (xs : List ℚ) : Welford := xs.foldl Welford.add w

/-! ### Concrete data for counterexamples and witnesses -/

/-- A content block of six short non-blank lines at indent zero, passing
retention branch (b) of the noise filter. -/
def cl6 : List (String × ℚ) :=
  [("alpha beta", 0), ("gamma delta", 0), ("epsilon zeta", 0),
   ("eta theta", 0), ("iota kappa", 0), ("lambda mu", 0)]

/-- A structured sequence whose first heading is followed by another
heading whose own content block passes the filter. -/
def cexItemsC1 : List Item := [Item.topic "abc", Item.topic "defg", Item.content cl6]

/-- A structured sequence with two surviving headings of the same text. -/
def cexItemsC3 : List Item :=
  [Item.topic "good topic", Item.content cl6, Item.topic "good topic", Item.content cl6]

/-- A seven-page document with one non-blank line per page. -/
def doc7 : List (List PageLine) :=
  [[⟨"a", 0, 0⟩], [⟨"a", 1, 0⟩], [⟨"a", 2, 0⟩], [⟨"a", 3, 0⟩],
   [⟨"a", 4, 0⟩], [⟨"a", 5, 0⟩], [⟨"a", 6, 0⟩]]

/-- Conditions on a formatter-produced topic name under which its marker
line round-trips through the demultiplexer: non-empty, whitespace-trimmed,
and free of angle brackets and newlines. -/
def goodName (nm : String) : Prop :=
  nm ≠ "" ∧ pyStrip nm = nm ∧ ∀ c ∈ nm.data, ¬ c = '<' ∧ ¬ c = '>' ∧ ¬ c = '\n'

/-- Conditions on a content block under which its rendered body lines are
not mistaken for marker lines by the demultiplexer: no reflowed unit text
contains a newline and no emitted paragraph line matches the marker
pattern after stripping. -/
def goodBlock (cl : List (String × ℚ)) : Prop :=
  ∀ p ∈ joinParagraphLines (blockLines cl),
    (∀ c ∈ p.text.data, ¬ c = '\n')
      ∧ (p.is_bullet = false → 30 ≤ p.text.length →
          isMarkerLine (pyStrip (withPeriod p.text)) = false)

instance (nm : String) : Decidable (goodName nm) := by
  unfold goodName
  exact inferInstance

instance (cl : List (String × ℚ)) : Decidable (goodBlock cl) := by
  unfold goodBlock
  exact inferInstance

/-- A structured sequence with one surviving heading, for the round-trip
witness. -/
def witnessItemsC3 : List Item := [Item.topic "good topic", Item.content cl6]

/-- The font sizes of the heading-threshold example. -/
def sizes5 : List ℚ := [10, 10, 10, 10, 20]

/-- A size-20 line with text longer than 2 characters. -/
def bigLine : LineRec := ⟨0, "Main Heading", 20, 0⟩

/-- A size-10 body line. -/
def smallLine : LineRec := ⟨0, "body words here", 10, 0⟩

/-! ### Theorems -/

theorem welfordFold_append (xs : List ℚ) (x : ℚ) :
    welfordFold (xs ++ [x]) = (welfordFold xs).add x := by
  simp [welfordFold, List.foldl_append]

theorem sum_sq_dev (m : ℚ) (xs : List ℚ) :
    (xs.map (fun x => (x - m) ^ 2)).sum
      = (xs.map (fun x => x ^ 2)).sum - 2 * m * xs.sum + (xs.length : ℚ) * m ^ 2 := by
  induction xs with
  | nil => simp
  | cons a t ih =>
    simp only [List.map_cons, List.sum_cons, List.length_cons, ih]
    push_cast
    ring

theorem welford_inv (xs : List ℚ) :
    (welfordFold xs).n = xs.length
      ∧ (welfordFold xs).mean = xs.sum / (xs.length : ℚ)
      ∧ (welfordFold xs).m2
          = (xs.map (fun x => x ^ 2)).sum - xs.sum ^ 2 / (xs.length : ℚ) := by
  induction xs using List.reverseRecOn with
  | nil => simp [welfordFold, Welford.init]
  | append_singleton t x ih =>
    obtain ⟨hn, hm, h2⟩ := ih
    rw [welfordFold_append]
    rcases Nat.eq_zero_or_pos t.length with h0 | hpos
    · have ht : t = [] := List.length_eq_zero.mp h0
      subst ht
      simp [welfordFold, Welford.init, Welford.add]
    · have hq : (t.length : ℚ) ≠ 0 := Nat.cast_ne_zero.mpr (Nat.pos_iff_ne_zero.mp hpos)
      have hq1 : ((t.length : ℚ) + 1) ≠ 0 := by positivity
      have hmean : ((welfordFold t).add x).mean = (t.sum + x) / ((t.length : ℚ) + 1) := by
        simp only [Welford.add, hn, hm]
        push_cast
        field_simp
        ring
      refine ⟨by simp [Welford.add, hn], by simpa using hmean, ?_⟩
      show (welfordFold t).m2
            + (x - (welfordFold t).mean) * (x - ((welfordFold t).add x).mean)
          = _
      rw [hmean, h2, hm]
      simp only [List.map_append, List.sum_append, List.map_cons, List.sum_cons,
        List.map_nil, List.sum_nil, List.length_append, List.length_cons, List.length_nil]
      push_cast
      field_simp
      ring

/-- C9: for every finite font-size sequence, the Welford accumulator's
incremental mean equals the batch arithmetic mean and variance() equals the
batch population variance (0 when the count is 0): in exact arithmetic the
incremental and direct computations are equivalent. -/
theorem welford_refines_batch (xs : List ℚ) :
    (welfordFold xs).n = xs.length
      ∧ (welfordFold xs).mean = batchMean xs
      ∧ (welfordFold xs).variance = batchPVar xs := by
  obtain ⟨hn, hm, h2⟩ := welford_inv xs
  refine ⟨hn, by rw [hm, batchMean], ?_⟩
  rw [Welford.variance, hn, batchPVar]
  rcases Nat.eq_zero_or_pos xs.length with h0 | hpos
  · simp [h0]
  · have hq : (xs.length : ℚ) ≠ 0 := Nat.cast_ne_zero.mpr (Nat.pos_iff_ne_zero.mp hpos)
    rw [if_pos hpos, h2, batchMean, sum_sq_dev]
    field_simp
    ring

/-! #### Association-list dictionary lemmas -/

theorem keysOf_extendEntry (m : TopicMap) (k : String) (v : List String) :
    keysOf (extendEntry m k v) = keysOf m := by
  induction m with
  | nil => rfl
  | cons e es ih =>
    simp only [extendEntry, keysOf, List.map_cons] at *
    by_cases h : e.1 = k <;> simp [h, ih]

theorem any_key_iff (m : TopicMap) (k : String) :
    (m.any (fun e => decide (e.1 = k)) = true) ↔ k ∈ keysOf m := by
  simp [keysOf, List.any_eq_true, List.mem_map]

theorem keysOf_updateAll (m : TopicMap) (k : String) (v : List String) :
    keysOf (m.map (fun e => if e.1 = k then (k, v) else e)) = keysOf m := by
  induction m with
  | nil => rfl
  | cons e es ih =>
    simp only [keysOf, List.map_cons] at *
    by_cases he : e.1 = k
    · simp [he, ih]
    · simp [he, ih]

theorem keysOf_setEntry (m : TopicMap) (k : String) (v : List String) :
    keysOf (setEntry m k v) = if k ∈ keysOf m then keysOf m else keysOf m ++ [k] := by
  by_cases h : k ∈ keysOf m
  · rw [if_pos h, setEntry, if_pos ((any_key_iff m k).mpr h), keysOf_updateAll]
  · rw [if_neg h, setEntry, if_neg]
    · simp [keysOf]
    · intro hc
      exact h ((any_key_iff m k).mp hc)

theorem mem_keysOf_setEntry (m : TopicMap) (k : String) (v : List String) :
    k ∈ keysOf (setEntry m k v) := by
  rw [keysOf_setEntry]
  by_cases h : k ∈ keysOf m <;> simp [h]

theorem getEntry_none_of_not_mem (m : TopicMap) (k : String) (h : k ∉ keysOf m) :
    getEntry m k = none := by
  induction m with
  | nil => rfl
  | cons e es ih =>
    simp only [keysOf, List.map_cons, List.mem_cons, not_or] at h
    rw [getEntry, if_neg (fun hc => h.1 hc.symm)]
    exact ih (by simpa [keysOf] using h.2)

theorem getEntry_append (m1 m2 : TopicMap) (k : String) :
    getEntry (m1 ++ m2) k
      = match getEntry m1 k with
        | some v => some v
        | none => getEntry m2 k := by
  induction m1 with
  | nil => simp [getEntry]
  | cons e es ih =>
    by_cases he : e.1 = k
    · simp [getEntry, he]
    · simp [getEntry, he, ih]

theorem getEntry_updateAll_self (m : TopicMap) (k : String) (v : List String)
    (h : k ∈ keysOf m) :
    getEntry (m.map (fun e => if e.1 = k then (k, v) else e)) k = some v := by
  induction m with
  | nil => simp [keysOf] at h
  | cons e es ih =>
    by_cases he : e.1 = k
    · rw [List.map_cons, if_pos he]
      simp [getEntry]
    · have hes : k ∈ keysOf es := by
        simp only [keysOf, List.map_cons, List.mem_cons] at h
        rcases h with h | h
        · exact absurd h.symm he
        · simpa [keysOf] using h
      rw [List.map_cons, if_neg he, getEntry, if_neg he]
      exact ih hes

theorem getEntry_updateAll_ne (m : TopicMap) (k k' : String) (v : List String)
    (h : k' ≠ k) :
    getEntry (m.map (fun e => if e.1 = k then (k, v) else e)) k' = getEntry m k' := by
  have hkk : ¬ k = k' := fun hc => h hc.symm
  induction m with
  | nil => rfl
  | cons e es ih =>
    by_cases he : e.1 = k
    · rw [List.map_cons, if_pos he, getEntry, getEntry, if_neg, if_neg, ih]
      · rw [he]; exact hkk
      · exact hkk
    · rw [List.map_cons, if_neg he, getEntry, getEntry]
      by_cases he' : e.1 = k'
      · rw [if_pos he', if_pos he']
      · rw [if_neg he', if_neg he', ih]

theorem getEntry_setEntry_self (m : TopicMap) (k : String) (v : List String) :
    getEntry (setEntry m k v) k = some v := by
  rw [setEntry]
  by_cases h : m.any (fun e => decide (e.1 = k)) = true
  · rw [if_pos h]
    exact getEntry_updateAll_self m k v ((any_key_iff m k).mp h)
  · rw [if_neg h, getEntry_append]
    have hnone : getEntry m k = none :=
      getEntry_none_of_not_mem m k (fun hc => h ((any_key_iff m k).mpr hc))
    simp [hnone, getEntry]

theorem getEntry_setEntry_ne (m : TopicMap) (k k' : String) (v : List String)
    (h : k' ≠ k) :
    getEntry (setEntry m k v) k' = getEntry m k' := by
  rw [setEntry]
  by_cases ha : m.any (fun e => decide (e.1 = k)) = true
  · rw [if_pos ha]
    exact getEntry_updateAll_ne m k k' v h
  · rw [if_neg ha, getEntry_append]
    have hkk : ¬ k = k' := fun hc => h hc.symm
    cases hg : getEntry m k' with
    | some v' => simp
    | none => simp [getEntry, hkk]

theorem getEntry_extendEntry_self (m : TopicMap) (k : String) (v : List String) :
    getEntry (extendEntry m k v) k = (getEntry m k).map (fun w => w ++ v) := by
  induction m with
  | nil => rfl
  | cons e es ih =>
    simp only [extendEntry, List.map_cons] at *
    by_cases he : e.1 = k
    · rw [if_pos he, getEntry, getEntry]
      simp [he]
    · rw [if_neg he, getEntry, getEntry, if_neg he, if_neg he, ih]

theorem getEntry_extendEntry_ne (m : TopicMap) (k k' : String) (v : List String)
    (h : k' ≠ k) :
    getEntry (extendEntry m k v) k' = getEntry m k' := by
  induction m with
  | nil => rfl
  | cons e es ih =>
    simp only [extendEntry, List.map_cons] at *
    by_cases he : e.1 = k
    · rw [if_pos he, getEntry, getEntry, if_neg, if_neg, ih]
      · rw [he]; exact fun hc => h hc.symm
      · show ¬ (e.1, e.2 ++ v).1 = k'
        rw [he]
        exact fun hc => h hc.symm
    · rw [if_neg he, getEntry, getEntry]
      by_cases he' : e.1 = k'
      · rw [if_pos he', if_pos he']
      · rw [if_neg he', if_neg he', ih]

theorem keysOf_flushInto (tok : String → List String) (topics : TopicMap)
    (cur : Option String) (buf : List String) :
    keysOf (flushInto tok topics cur buf) = keysOf topics := by
  cases cur with
  | none => rfl
  | some ct =>
    by_cases hb : buf ≠ [] <;> simp [flushInto, hb, keysOf_extendEntry]

theorem getEntry_flushInto_congr (tok : String → List String) (name : String)
    (t1 t2 : TopicMap) (cur : Option String) (buf : List String)
    (h : getEntry t1 name = getEntry t2 name) :
    getEntry (flushInto tok t1 cur buf) name
      = getEntry (flushInto tok t2 cur buf) name := by
  cases cur with
  | none => exact h
  | some ct =>
    by_cases hb : buf ≠ []
    · simp only [flushInto, if_pos hb]
      by_cases hc : name = ct
      · subst hc
        rw [getEntry_extendEntry_self, getEntry_extendEntry_self, h]
      · rw [getEntry_extendEntry_ne _ _ _ _ hc, getEntry_extendEntry_ne _ _ _ _ hc, h]
    · simpa [flushInto, hb] using h

/-! #### Demultiplexer run lemmas -/

theorem runDemux_append (tok : String → List String) (st : DemuxSt)
    (l1 l2 : List String) :
    runDemux tok st (l1 ++ l2) = runDemux tok (runDemux tok st l1) l2 := by
  simp [runDemux, List.foldl_append]

theorem runDemux_nil (tok : String → List String) (st : DemuxSt) :
    runDemux tok st [] = st := rfl

theorem runDemux_cons (tok : String → List String) (st : DemuxSt)
    (l : String) (ls : List String) :
    runDemux tok st (l :: ls) = runDemux tok (demuxStep tok st l) ls := rfl

theorem runDemux_no_marker (tok : String → List String) :
    ∀ pre : List String, (∀ l ∈ pre, markerNameOf l = none) →
    ∀ b : List String, ∃ b', runDemux tok ⟨[], none, b⟩ pre = ⟨[], none, b'⟩ := by
  intro pre
  induction pre with
  | nil => exact fun _ b => ⟨b, rfl⟩
  | cons l t ih =>
    intro h b
    have hl : markerNameOf l = none := h l (List.mem_cons_self l t)
    have ht : ∀ l' ∈ t, markerNameOf l' = none :=
      fun l' h' => h l' (List.mem_cons_of_mem l h')
    rw [runDemux_cons]
    by_cases hs : pyStrip l ≠ ""
    · have e1 : demuxStep tok ⟨[], none, b⟩ l = ⟨[], none, b ++ [pyStrip l]⟩ := by
        simp [demuxStep, hl, hs]
      rw [e1]
      exact ih ht _
    · have e1 : demuxStep tok ⟨[], none, b⟩ l = ⟨[], none, b⟩ := by
        simp [demuxStep, hl, hs]
      rw [e1]
      exact ih ht b

theorem demux_buffer_irrelevant (tok : String → List String) :
    ∀ (ls : List String) (b1 b2 : List String),
      finalizeDemux tok (runDemux tok ⟨[], none, b1⟩ ls)
        = finalizeDemux tok (runDemux tok ⟨[], none, b2⟩ ls) := by
  intro ls
  induction ls with
  | nil => intro b1 b2; rfl
  | cons l t ih =>
    intro b1 b2
    rw [runDemux_cons, runDemux_cons]
    cases hm : markerNameOf l with
    | some nm =>
      have e : demuxStep tok ⟨[], none, b1⟩ l = demuxStep tok ⟨[], none, b2⟩ l := by
        simp [demuxStep, hm, flushInto]
      rw [e]
    | none =>
      by_cases hs : pyStrip l ≠ ""
      · have e1 : demuxStep tok ⟨[], none, b1⟩ l = ⟨[], none, b1 ++ [pyStrip l]⟩ := by
          simp [demuxStep, hm, hs]
        have e2 : demuxStep tok ⟨[], none, b2⟩ l = ⟨[], none, b2 ++ [pyStrip l]⟩ := by
          simp [demuxStep, hm, hs]
        rw [e1, e2]
        exact ih _ _
      · have e1 : demuxStep tok ⟨[], none, b1⟩ l = ⟨[], none, b1⟩ := by
          simp [demuxStep, hm, hs]
        have e2 : demuxStep tok ⟨[], none, b2⟩ l = ⟨[], none, b2⟩ := by
          simp [demuxStep, hm, hs]
        rw [e1, e2]
        exact ih b1 b2

/-- C10: split_into_topics discards every non-blank line that precedes the
first topic-marker line: a run whose leading lines are all marker-free
produces exactly the topic map of the remaining lines, so preamble content
(including orphan content emitted before any heading) appears in no entry
of the result. -/
theorem preamble_discarded (tok : String → List String) (pre rest : List String)
    (h : ∀ l ∈ pre, markerNameOf l = none) :
    splitTopicsList tok (pre ++ rest) = splitTopicsList tok rest := by
  unfold splitTopicsList
  rw [runDemux_append]
  obtain ⟨b', hb⟩ := runDemux_no_marker tok pre h []
  rw [hb]
  exact demux_buffer_irrelevant tok rest b' []

/-- Witness for the preamble theorem at a concrete input. -/
theorem preamble_discarded_witness :
    splitTopicsList tok0 (["orphan content line", "stray fragment"] ++ ["<A>", "hello there."])
      = splitTopicsList tok0 ["<A>", "hello there."] :=
  preamble_discarded tok0 ["orphan content line", "stray fragment"]
    ["<A>", "hello there."] (by decide)

theorem runDemux_keys (tok : String → List String) :
    ∀ (ls : List String) (st : DemuxSt),
      (∀ c, st.current = some c → c ∈ keysOf st.topics) →
      keysOf (finalizeDemux tok (runDemux tok st ls))
        = keysAfter (keysOf st.topics) (ls.filterMap markerNameOf) := by
  intro ls
  induction ls with
  | nil =>
    intro st _
    simp [runDemux, finalizeDemux, keysOf_flushInto, keysAfter]
  | cons l t ih =>
    intro st h
    rw [runDemux_cons]
    cases hm : markerNameOf l with
    | some nm =>
      have e1 : demuxStep tok st l
          = ⟨setEntry (flushInto tok st.topics st.current st.buffer) nm [], some nm, []⟩ := by
        simp [demuxStep, hm]
      rw [e1, List.filterMap_cons_some hm, keysAfter]
      have hkeys : keysOf (setEntry (flushInto tok st.topics st.current st.buffer) nm [])
          = if nm ∈ keysOf st.topics then keysOf st.topics else keysOf st.topics ++ [nm] := by
        rw [keysOf_setEntry, keysOf_flushInto]
      have := ih ⟨setEntry (flushInto tok st.topics st.current st.buffer) nm [], some nm, []⟩
        (by intro c hc
            cases hc
            exact mem_keysOf_setEntry _ _ _)
      rw [this, hkeys]
    | none =>
      rw [List.filterMap_cons_none hm]
      by_cases hs : pyStrip l ≠ ""
      · have e1 : demuxStep tok st l = ⟨st.topics, st.current, st.buffer ++ [pyStrip l]⟩ := by
          simp [demuxStep, hm, hs]
        rw [e1]
        exact ih _ (by intro c hc; exact h c hc)
      · have e1 : demuxStep tok st l = st := by
          simp [demuxStep, hm, hs]
        rw [e1]
        exact ih st h

theorem splitTopicsList_keys (tok : String → List String) (ls : List String) :
    keysOf (splitTopicsList tok ls) = keysAfter [] (ls.filterMap markerNameOf) :=
  runDemux_keys tok ls ⟨[], none, []⟩ (fun _ hc => Option.noConfusion hc)

theorem runDemux_keys_nodup (tok : String → List String) :
    ∀ (ls : List String) (st : DemuxSt),
      (keysOf st.topics).Nodup →
      (keysOf (finalizeDemux tok (runDemux tok st ls))).Nodup := by
  intro ls
  induction ls with
  | nil =>
    intro st h
    simpa [runDemux, finalizeDemux, keysOf_flushInto] using h
  | cons l t ih =>
    intro st h
    rw [runDemux_cons]
    cases hm : markerNameOf l with
    | some nm =>
      have e1 : demuxStep tok st l
          = ⟨setEntry (flushInto tok st.topics st.current st.buffer) nm [], some nm, []⟩ := by
        simp [demuxStep, hm]
      rw [e1]
      apply ih
      show (keysOf (setEntry (flushInto tok st.topics st.current st.buffer) nm [])).Nodup
      rw [keysOf_setEntry, keysOf_flushInto]
      by_cases hmem : nm ∈ keysOf st.topics
      · simpa [hmem] using h
      · rw [if_neg hmem]
        exact List.Nodup.append h (List.nodup_singleton nm)
          (by simpa [List.disjoint_singleton] using hmem)
    | none =>
      by_cases hs : pyStrip l ≠ ""
      · have e1 : demuxStep tok st l = ⟨st.topics, st.current, st.buffer ++ [pyStrip l]⟩ := by
          simp [demuxStep, hm, hs]
        rw [e1]
        exact ih _ h
      · have e1 : demuxStep tok st l = st := by
          simp [demuxStep, hm, hs]
        rw [e1]
        exact ih st h

theorem splitTopicsList_keys_nodup (tok : String → List String) (ls : List String) :
    (keysOf (splitTopicsList tok ls)).Nodup :=
  runDemux_keys_nodup tok ls ⟨[], none, []⟩ (by simp [keysOf])

theorem demux_agree_on (tok : String → List String) (name : String) :
    ∀ ls : List String, (∀ l ∈ ls, markerNameOf l ≠ some name) →
    ∀ s1 s2 : DemuxSt, s1.current = s2.current → s1.buffer = s2.buffer →
      getEntry s1.topics name = getEntry s2.topics name →
      getEntry (finalizeDemux tok (runDemux tok s1 ls)) name
        = getEntry (finalizeDemux tok (runDemux tok s2 ls)) name := by
  intro ls
  induction ls with
  | nil =>
    intro _ s1 s2 hc hb hg
    rw [runDemux_nil, runDemux_nil, finalizeDemux, finalizeDemux, hc, hb]
    exact getEntry_flushInto_congr tok name _ _ _ _ hg
  | cons l t ih =>
    intro h s1 s2 hc hb hg
    have hl := h l (List.mem_cons_self l t)
    have ht := fun l' h' => h l' (List.mem_cons_of_mem l h')
    rw [runDemux_cons, runDemux_cons]
    cases hm : markerNameOf l with
    | some nm =>
      have hnm : name ≠ nm := by
        intro e
        exact hl (by rw [hm, e])
      have e1 : demuxStep tok s1 l
          = ⟨setEntry (flushInto tok s1.topics s1.current s1.buffer) nm [], some nm, []⟩ := by
        simp [demuxStep, hm]
      have e2 : demuxStep tok s2 l
          = ⟨setEntry (flushInto tok s2.topics s2.current s2.buffer) nm [], some nm, []⟩ := by
        simp [demuxStep, hm]
      rw [e1, e2]
      apply ih ht ⟨setEntry (flushInto tok s1.topics s1.current s1.buffer) nm [], some nm, []⟩
        ⟨setEntry (flushInto tok s2.topics s2.current s2.buffer) nm [], some nm, []⟩ rfl rfl
      show getEntry (setEntry (flushInto tok s1.topics s1.current s1.buffer) nm []) name
          = getEntry (setEntry (flushInto tok s2.topics s2.current s2.buffer) nm []) name
      rw [getEntry_setEntry_ne _ _ _ _ hnm, getEntry_setEntry_ne _ _ _ _ hnm, hc, hb]
      exact getEntry_flushInto_congr tok name _ _ _ _ hg
    | none =>
      by_cases hs : pyStrip l ≠ ""
      · have e1 : demuxStep tok s1 l = ⟨s1.topics, s1.current, s1.buffer ++ [pyStrip l]⟩ := by
          simp [demuxStep, hm, hs]
        have e2 : demuxStep tok s2 l = ⟨s2.topics, s2.current, s2.buffer ++ [pyStrip l]⟩ := by
          simp [demuxStep, hm, hs]
        rw [e1, e2]
        exact ih ht _ _ hc (by rw [hb]) hg
      · have e1 : demuxStep tok s1 l = s1 := by
          simp [demuxStep, hm, hs]
        have e2 : demuxStep tok s2 l = s2 := by
          simp [demuxStep, hm, hs]
        rw [e1, e2]
        exact ih ht s1 s2 hc hb hg

/-- C2 (amended): when a topic-marker name reoccurs, split_into_topics keeps
a single entry for it, but re-opening the marker resets that entry to the
empty list, so the final entry holds only the sentences produced from the
content accumulated after the last occurrence of the marker: the entry of
the whole run equals the entry of the run that starts at the last
occurrence.  Sentences from earlier occurrences are discarded, not kept. -/
theorem repeated_marker_last_wins (tok : String → List String) (name : String)
    (l1 l2 : List String) (mline : String)
    (hmk : markerNameOf mline = some name)
    (h2 : ∀ l ∈ l2, markerNameOf l ≠ some name) :
    getEntry (splitTopicsList tok (l1 ++ mline :: l2)) name
      = getEntry (splitTopicsList tok (mline :: l2)) name
      ∧ (keysOf (splitTopicsList tok (l1 ++ mline :: l2))).count name ≤ 1 := by
  constructor
  · unfold splitTopicsList
    rw [runDemux_append]
    rw [runDemux_cons]
    rw [show runDemux tok ⟨[], none, []⟩ (mline :: l2)
          = runDemux tok (demuxStep tok ⟨[], none, []⟩ mline) l2 from runDemux_cons tok _ mline l2]
    have e1 : ∀ st : DemuxSt, demuxStep tok st mline
        = ⟨setEntry (flushInto tok st.topics st.current st.buffer) name [], some name, []⟩ := by
      intro st
      simp [demuxStep, hmk]
    rw [e1, e1]
    refine demux_agree_on tok name l2 h2
      ⟨setEntry (flushInto tok (runDemux tok ⟨[], none, []⟩ l1).topics
          (runDemux tok ⟨[], none, []⟩ l1).current
          (runDemux tok ⟨[], none, []⟩ l1).buffer) name [], some name, []⟩
      ⟨setEntry (flushInto tok [] none []) name [], some name, []⟩ rfl rfl ?_
    rw [getEntry_setEntry_self, getEntry_setEntry_self]
  · exact List.nodup_iff_count_le_one.mp (splitTopicsList_keys_nodup tok _) name

/-- Witness for the repeated-marker theorem at a concrete input. -/
theorem repeated_marker_last_wins_witness :
    getEntry (splitTopicsList tok0 (["<A>", "foo bar one."] ++ "<A>" :: ["second text here."])) "A"
      = getEntry (splitTopicsList tok0 ("<A>" :: ["second text here."])) "A"
      ∧ (keysOf (splitTopicsList tok0 (["<A>", "foo bar one."] ++ "<A>" :: ["second text here."]))).count "A" ≤ 1 :=
  repeated_marker_last_wins tok0 "A" ["<A>", "foo bar one."] ["second text here."] "<A>"
    (by decide) (by decide)

/-- Counterexample to C2 as stated: in the concrete marker text below the
name A occurs twice; the first occurrence's content produces the non-empty
sentence list of the second conjunct, yet the returned entry for A holds
only the sentences of the second occurrence: the earlier sentences are
discarded rather than concatenated in document order. -/
theorem repeated_marker_cex :
    splitIntoTopics tok0 "<A>\nfoo bar one.\n<A>\nsecond text here."
        = [("A", ["second text here."])]
      ∧ flushBuffer tok0 ["foo bar one."] = ["foo bar one."] := by
  constructor
  · decide
  · decide

/-! #### Noise filter (C1) -/

theorem pySpaceJoin_length (l : List String) :
    (pySpaceJoin l).length = (l.map String.length).sum + (l.length - 1) := by
  induction l with
  | nil => simp [pySpaceJoin]
  | cons s rest ih =>
    cases rest with
    | nil => simp [pySpaceJoin]
    | cons t r =>
      rw [pySpaceJoin, String.length_append, String.length_append, ih]
      simp only [List.map_cons, List.sum_cons, List.length_cons]
      have : (" " : String).length = 1 := rfl
      omega

/-- C1 (amended): the noise filter keeps an adjacent heading-content pair
exactly when the space-join of the block's non-blank lines (whose length
is the sum of the line lengths plus one separator between consecutive
lines) reaches 80 characters with at least 2 such lines, or there are at
least 6 such lines.  A heading at the very end is dropped alone, but a
heading immediately followed by another heading is dropped together with
that second heading, whose own retention is never evaluated; any content
block not directly following a heading (including one orphaned this way)
passes through unchanged. -/
theorem noise_filter_rules (t t' : String) (cl : List (String × ℚ)) (rest : List Item) :
    (filterContent (Item.topic t :: Item.content cl :: rest)
        = if keepContent cl then Item.topic t :: Item.content cl :: filterContent rest
          else filterContent rest)
      ∧ (keepContent cl = true
          ↔ ((((neLines cl).map String.length).sum + ((neLines cl).length - 1) ≥ 80
              ∧ (neLines cl).length ≥ 2)
            ∨ (neLines cl).length ≥ 6))
      ∧ filterContent (Item.topic t :: Item.topic t' :: rest) = filterContent rest
      ∧ filterContent [Item.topic t] = []
      ∧ filterContent (Item.content cl :: rest) = Item.content cl :: filterContent rest := by
  refine ⟨by simp only [filterContent], ?_, by simp only [filterContent],
    by simp only [filterContent], by simp only [filterContent]⟩
  rw [keepContent, pySpaceJoin_length]
  simp [Bool.or_eq_true, Bool.and_eq_true, decide_eq_true_eq]

/-- Counterexample to C1 as stated: in the concrete structured sequence a
heading is followed by a second heading whose content block passes the
filter (six non-blank lines).  The claim says the first heading is dropped
by itself, leaving the second pair retained and no orphan content; the
code instead drops both headings without evaluating the second pair and
emits the content block as an orphan. -/
theorem noise_filter_cex :
    filterContent cexItemsC1 = [Item.content cl6] ∧ keepContent cl6 = true := by
  constructor
  · decide
  · decide

/-! #### Bullet detection (C5) -/

theorem dropWhile_all_cons {α : Type} (p : α → Bool) (ws : List α) (c : α) (r : List α)
    (hws : ∀ w ∈ ws, p w = true) (hc : ¬ p c = true) :
    (ws ++ c :: r).dropWhile p = c :: r := by
  induction ws with
  | nil => simp [List.dropWhile, hc]
  | cons w t ih =>
    have hw : p w = true := hws w (List.mem_cons_self w t)
    simp only [List.cons_append, List.dropWhile, hw]
    exact ih (fun x hx => hws x (List.mem_cons_of_mem w hx))

theorem bulletGlyph_not_space (c : Char) (h : bulletGlyph c = true) :
    isSpaceChar c = false := by
  simp only [bulletGlyph, Bool.or_eq_true, decide_eq_true_eq] at h
  rcases h with ((((h | h) | h) | h) | h) <;> subst h <;> decide

theorem bulletGlyph_not_digit (c : Char) (h : bulletGlyph c = true) :
    c.isDigit = false := by
  simp only [bulletGlyph, Bool.or_eq_true, decide_eq_true_eq] at h
  rcases h with ((((h | h) | h) | h) | h) <;> subst h <;> decide

theorem digit_not_space (c : Char) (h : c.isDigit = true) : isSpaceChar c = false := by
  by_contra hs
  have hs' : isSpaceChar c = true := by
    cases hv : isSpaceChar c
    · exact absurd hv hs
    · rfl
  simp only [isSpaceChar, Bool.or_eq_true, decide_eq_true_eq] at hs'
  rcases hs' with ((((hc | hc) | hc) | hc) | hc) | hc <;> subst hc <;> exact absurd h (by decide)

theorem bulletStart_iff (cs : List Char) :
    bulletStart cs = true
      ↔ ∃ ws c rest, cs = ws ++ c :: rest ∧ (∀ w ∈ ws, isSpaceChar w = true)
          ∧ ((bulletGlyph c = true ∧ ∃ w r2, rest = w :: r2 ∧ isSpaceChar w = true)
            ∨ (c.isDigit = true
                ∧ ∃ ds p w r3, rest = ds ++ p :: w :: r3
                    ∧ (∀ d ∈ ds, d.isDigit = true)
                    ∧ (p = '.' ∨ p = ')')
                    ∧ isSpaceChar w = true)) := by
  constructor
  · intro h
    rw [bulletStart] at h
    rcases hd : cs.dropWhile isSpaceChar with _ | ⟨c, rest⟩
    · rw [hd] at h
      exact absurd h (by simp [bulletCore])
    · rw [hd] at h
      simp only [bulletCore] at h
      refine ⟨cs.takeWhile isSpaceChar, c, rest, ?_, ?_, ?_⟩
      · rw [← hd, List.takeWhile_append_dropWhile]
      · intro w hw
        exact List.mem_takeWhile_imp hw
      · by_cases hg : bulletGlyph c = true
        · rw [if_pos hg] at h
          rcases rest with _ | ⟨w, r2⟩
          · exact absurd h (by simp)
          · exact Or.inl ⟨hg, w, r2, rfl, h⟩
        · rw [if_neg hg] at h
          by_cases hdg : c.isDigit = true
          · rw [if_pos hdg] at h
            rcases hdw : rest.dropWhile Char.isDigit with _ | ⟨p, r2⟩
            · rw [hdw] at h
              exact absurd h (by simp)
            · rcases r2 with _ | ⟨w, r3⟩
              · rw [hdw] at h
                exact absurd h (by simp)
              · rw [hdw] at h
                simp only [Bool.and_eq_true, Bool.or_eq_true, decide_eq_true_eq] at h
                refine Or.inr ⟨hdg, rest.takeWhile Char.isDigit, p, w, r3, ?_, ?_, h.1, h.2⟩
                · rw [← hdw, List.takeWhile_append_dropWhile]
                · intro d hdm
                  exact List.mem_takeWhile_imp hdm
          · rw [if_neg hdg] at h
            exact absurd h (by simp)
  · rintro ⟨ws, c, rest, rfl, hws, hcase⟩
    rcases hcase with ⟨hg, w, r2, rfl, hw⟩ | ⟨hdg, ds, p, w, r3, rfl, hds, hp, hw⟩
    · have hcs : ¬ isSpaceChar c = true := by
        rw [bulletGlyph_not_space c hg]
        simp
      rw [bulletStart, dropWhile_all_cons isSpaceChar ws c _ hws hcs]
      simp only [bulletCore]
      rw [if_pos hg]
      exact hw
    · have hcs : ¬ isSpaceChar c = true := by
        rw [digit_not_space c hdg]
        simp
      have hgc : bulletGlyph c = false := by
        cases hv : bulletGlyph c
        · rfl
        · exact absurd hdg (by rw [bulletGlyph_not_digit c hv]; simp)
      have hpd : ¬ p.isDigit = true := by
        rcases hp with hp | hp <;> subst hp <;> decide
      rw [bulletStart, dropWhile_all_cons isSpaceChar ws c _ hws hcs]
      simp only [bulletCore]
      rw [if_neg (by rw [hgc]; simp), if_pos hdg,
        dropWhile_all_cons Char.isDigit ds p _ hds hpd]
      simp only [Bool.and_eq_true, Bool.or_eq_true, decide_eq_true_eq]
      exact ⟨hp, hw⟩

/-- C5 (amended): inside one block a line is a list item exactly when the
right-stripped text matches the bullet pattern or its indent exceeds the
block median by more than 10 units; the bullet pattern is optional
whitespace, then a bullet glyph or digits followed by a dot or closing
parenthesis, then whitespace.  The hyphen is not in the glyph class (the
hyphen-bearing pattern at module level is never used).  In particular the
bullet line and the plus-15 indent line classify as list items and the
plus-5 indent line does not. -/
theorem bullet_detection (median indent : ℚ) (ln : String) :
    (isBulletLn median ln indent = true
      ↔ (bulletMatch (pyRstrip ln) = true ∨ indent - median > 10))
    ∧ (∀ cs : List Char, bulletStart cs = true
        ↔ ∃ ws c rest, cs = ws ++ c :: rest ∧ (∀ w ∈ ws, isSpaceChar w = true)
            ∧ ((bulletGlyph c = true ∧ ∃ w r2, rest = w :: r2 ∧ isSpaceChar w = true)
              ∨ (c.isDigit = true
                  ∧ ∃ ds p w r3, rest = ds ++ p :: w :: r3
                      ∧ (∀ d ∈ ds, d.isDigit = true)
                      ∧ (p = '.' ∨ p = ')')
                      ∧ isSpaceChar w = true)))
    ∧ isBulletLn 0 "• first item" 0 = true
    ∧ isBulletLn 0 "plain text" 15 = true
    ∧ isBulletLn 0 "plain text" 5 = false := by
  refine ⟨?_, bulletStart_iff, by decide, by decide, by decide⟩
  simp [isBulletLn, Bool.or_eq_true, decide_eq_true_eq]

/-- Counterexample to C5 as stated: a line starting with a hyphen and a
space is not classified as a list item by the code (the compiled pattern
has no hyphen), although the claim's pattern enumeration includes the
hyphen; the same line with an asterisk is classified. -/
theorem bullet_dash_cex :
    isBulletLn 0 "- first item" 0 = false ∧ isBulletLn 0 "* first item" 0 = true := by
  constructor
  · decide
  · decide

/-! #### Marker formatter period rule (C6) -/

/-- C6 (amended): the trailing period is appended to every emitted unit
whose last character is alphanumeric, bullet units included: a bullet is
emitted as the dash prefix, its text with that possible period, and a
newline.  (A non-bullet unit shorter than 30 characters is dropped.) -/
theorem render_unit_period (p : Para) :
    (p.is_bullet = true → renderUnitParts p = ["- ", withPeriod p.text, "\n"])
    ∧ (p.is_bullet = false → 30 ≤ p.text.length →
        renderUnitParts p = [withPeriod p.text, "\n\n"])
    ∧ (p.is_bullet = false → p.text.length < 30 → renderUnitParts p = [])
    ∧ (lastAlnum p.text = true → withPeriod p.text = p.text ++ ".")
    ∧ (lastAlnum p.text = false → withPeriod p.text = p.text) := by
  refine ⟨?_, ?_, ?_, ?_, ?_⟩
  · intro h
    simp [renderUnitParts, h]
  · intro h1 h2
    simp [renderUnitParts, h1, Nat.not_lt.mpr h2]
  · intro h1 h2
    simp [renderUnitParts, h1, h2]
  · intro h
    simp [withPeriod, h]
  · intro h
    simp [withPeriod, h]

/-- Witness for the period rule at a concrete bullet unit. -/
theorem render_unit_period_witness :
    renderUnitParts ⟨"first item", true⟩ = ["- ", withPeriod "first item", "\n"] :=
  (render_unit_period ⟨"first item", true⟩).1 rfl

/-- Counterexample to C6 as stated: the bullet unit below ends in an
alphanumeric character and is emitted with a period appended, while the
claim says bullet units are emitted with their text otherwise unchanged
and no period appended. -/
theorem render_unit_cex :
    renderUnitParts ⟨"first item", true⟩ = ["- ", "first item.", "\n"]
      ∧ "first item." ≠ "first item" := by
  constructor
  · decide
  · decide

/-! #### Paragraph joining rules (C7) -/

/-- C7: the joining rules of the paragraph reconstructor.  For a cleaned,
non-bullet, non-empty line: a buffer ending in a hyphen merges by deleting
the hyphen and concatenating directly; otherwise a lowercase-starting line
merges with a space, while any other line flushes the buffer as a
completed paragraph and starts a new one; after each of these, a buffer
ending in terminal punctuation is flushed immediately.  The lines of the
de-hyphenation example reflow to the single paragraph unit. -/
theorem join_rules (median indent : ℚ) (st : JoinSt) (orig : String) :
    (st.buf ≠ "" → isBulletLn median orig indent = false →
      cleanLine (pyRstrip orig) ≠ "" →
      ((endsWithHyphen st.buf = true →
          joinStep median st (orig, indent)
            = finishBuf st.out (strDropLast st.buf ++ cleanLine (pyRstrip orig)))
        ∧ (endsWithHyphen st.buf = false → startsLower (cleanLine (pyRstrip orig)) = true →
          joinStep median st (orig, indent)
            = finishBuf st.out (st.buf ++ " " ++ cleanLine (pyRstrip orig)))
        ∧ (endsWithHyphen st.buf = false → startsLower (cleanLine (pyRstrip orig)) = false →
          joinStep median st (orig, indent)
            = finishBuf (st.out ++ [⟨st.buf, false⟩]) (cleanLine (pyRstrip orig)))))
    ∧ (∀ (out : List Para) (b : String), endsWithTerm b = true →
        finishBuf out b = ⟨out ++ [⟨b, false⟩], ""⟩)
    ∧ joinParagraphLines [("exam-", 0), ("ple sentence.", 0)]
        = [⟨"example sentence.", false⟩] := by
  refine ⟨?_, ?_, ?_⟩
  · intro hbuf hnb hln
    refine ⟨?_, ?_, ?_⟩
    · intro h1
      simp [joinStep, hnb, hln, hbuf, h1]
    · intro h1 h2
      simp [joinStep, hnb, hln, hbuf, h1, h2]
    · intro h1 h2
      simp [joinStep, hnb, hln, hbuf, h1, h2]
  · intro out b h
    simp [finishBuf, h]
  · decide

/-- Witness for the joining rules at the de-hyphenation input. -/
theorem join_rules_witness :
    joinStep 0 ⟨[], "exam-"⟩ ("ple sentence.", 0)
      = finishBuf [] (strDropLast "exam-" ++ cleanLine (pyRstrip "ple sentence.")) :=
  ((join_rules 0 0 ⟨[], "exam-"⟩ "ple sentence.").1 (by decide) (by decide) (by decide)).1
    (by decide)

/-! #### Sampling policy (C8) -/

theorem welfordMore_append (w : Welford) (xs ys : List ℚ) :
    welfordMore w (xs ++ ys) = welfordMore (welfordMore w xs) ys := by
  simp [welfordMore, List.foldl_append]

theorem pageRecs_cons_blank (pidx : ℕ) (l : PageLine) (pg : List PageLine)
    (h : l.text = "") : pageRecs pidx (l :: pg) = pageRecs pidx pg := by
  simp [pageRecs, List.filter_cons, h]

theorem pageRecs_cons_ne (pidx : ℕ) (l : PageLine) (pg : List PageLine)
    (h : l.text ≠ "") :
    pageRecs pidx (l :: pg) = ⟨pidx, l.text, l.size, l.minX⟩ :: pageRecs pidx pg := by
  simp [pageRecs, List.filter_cons, h]

theorem passLines_spec (fast : Bool) (sp total pidx : ℕ) (pg : List PageLine) :
    ∀ (acc : Welford) (lrs : List LineRec),
      passLines fast sp total pidx pg (acc, lrs)
        = ((if !fast || inSample sp total pidx then
              welfordMore acc ((pageRecs pidx pg).map LineRec.size)
            else acc),
           lrs ++ pageRecs pidx pg) := by
  induction pg with
  | nil =>
    intro acc lrs
    simp [passLines, pageRecs, welfordMore]
  | cons l rest ih =>
    intro acc lrs
    by_cases ht : l.text = ""
    · rw [passLines, if_pos ht, ih, pageRecs_cons_blank pidx l rest ht]
    · rw [passLines, if_neg ht, ih, pageRecs_cons_ne pidx l rest ht]
      by_cases hf : (!fast || inSample sp total pidx) = true
      · rw [if_pos hf, if_pos hf, if_pos hf]
        simp [welfordMore, List.append_assoc]
      · rw [if_neg hf, if_neg hf, if_neg hf]
        simp [List.append_assoc]

theorem passPages_spec (fast : Bool) (sp total : ℕ) :
    ∀ (pages : List (List PageLine)) (pidx : ℕ) (acc : Welford) (lrs : List LineRec),
      passPages fast sp total pidx pages (acc, lrs)
        = (welfordMore acc (fedFrom fast sp total pidx pages),
           lrs ++ docRecsFrom pidx pages) := by
  intro pages
  induction pages with
  | nil =>
    intro pidx acc lrs
    simp [passPages, fedFrom, docRecsFrom, welfordMore]
  | cons pg rest ih =>
    intro pidx acc lrs
    rw [passPages, passLines_spec, ih, fedFrom, docRecsFrom]
    by_cases hf : (!fast || inSample sp total pidx) = true
    · rw [if_pos hf, if_pos hf, welfordMore_append]
      simp [List.append_assoc]
    · rw [if_neg hf, if_neg hf]
      simp [welfordMore, List.append_assoc]

theorem extractPass_spec (fast : Bool) (sp : ℕ) (doc : List (List PageLine)) :
    extractPass fast sp doc
      = (welfordFold (fedFrom fast sp doc.length 0 doc), docRecsFrom 0 doc) := by
  rw [extractPass, passPages_spec]
  simp [welfordFold, welfordMore, Welford.init]

theorem pageRecs_filter_page (pidx : ℕ) (pg : List PageLine) (q : ℕ → Bool) :
    (pageRecs pidx pg).filter (fun r => q r.page)
      = if q pidx then pageRecs pidx pg else [] := by
  induction pg with
  | nil => simp [pageRecs]
  | cons l rest ih =>
    by_cases ht : l.text = ""
    · rw [pageRecs_cons_blank pidx l rest ht, ih]
    · rw [pageRecs_cons_ne pidx l rest ht, List.filter_cons]
      by_cases hq : q pidx = true
      · rw [ih]
        simp [hq]
      · rw [ih]
        simp [hq]

theorem fedFrom_fast (sp total : ℕ) :
    ∀ (pages : List (List PageLine)) (pidx : ℕ), pidx + pages.length ≤ total →
      fedFrom true sp total pidx pages
        = ((docRecsFrom pidx pages).filter
            (fun r => decide (r.page % stepOf sp total = 0))).map LineRec.size := by
  intro pages
  induction pages with
  | nil =>
    intro pidx _
    simp [fedFrom, docRecsFrom]
  | cons pg rest ih =>
    intro pidx hle
    have hp : pidx < total := by
      simp only [List.length_cons] at hle
      omega
    have h1 : pidx + 1 + rest.length ≤ total := by
      simp only [List.length_cons] at hle
      omega
    rw [fedFrom, docRecsFrom, List.filter_append, List.map_append, ih (pidx + 1) h1]
    congr 1
    have hin : inSample sp total pidx = decide (pidx % stepOf sp total = 0) := by
      simp [inSample, hp, Nat.lt_of_le_of_lt (Nat.zero_le pidx) hp]
    rw [show (!true || inSample sp total pidx) = inSample sp total pidx from by simp, hin,
      pageRecs_filter_page pidx pg (fun p => decide (p % stepOf sp total = 0))]
    by_cases hc : pidx % stepOf sp total = 0
    · simp [hc]
    · simp [hc]

/-- C8 (amended): in fast mode the lines feeding the font-statistics
accumulator are exactly those whose page index is a multiple of the step
max(1, floor(total_pages / sample_count)) (a floor quotient, not the
ceiling the claim states), and the extracted line sequence is the same
with or without fast mode: sampling affects only the accumulator. -/
theorem sampling_policy (sp : ℕ) (doc : List (List PageLine)) (hsp : 0 < sp) :
    (extractPass true sp doc).2 = docRecsFrom 0 doc
    ∧ (extractPass false sp doc).2 = docRecsFrom 0 doc
    ∧ (extractPass true sp doc).1
        = welfordFold (((docRecsFrom 0 doc).filter
            (fun r => decide (r.page % stepOf sp doc.length = 0))).map LineRec.size)
    ∧ stepOf sp doc.length = max 1 (doc.length / sp) := by
  refine ⟨?_, ?_, ?_, rfl⟩
  · rw [extractPass_spec]
  · rw [extractPass_spec]
  · rw [extractPass_spec]
    rw [fedFrom_fast sp doc.length doc 0 (by simp)]

/-- Witness for the sampling theorem at a concrete document. -/
theorem sampling_policy_witness :
    (extractPass true 4 doc7).2 = docRecsFrom 0 doc7 :=
  (sampling_policy 4 doc7 (by decide)).1

/-- Counterexample to C8 as stated: seven pages and sample count 4.  The
ceiling step of the claim is 2, sampling the four pages 0, 2, 4 and 6; the
code's floor step is max(1, 7 // 4) = 1, so the lines of all seven pages
feed the accumulator, whose count ends at 7, not 4. -/
theorem sampling_cex :
    (extractPass true 4 doc7).1.n = 7
      ∧ ((List.range 7).filter (fun p => decide (p % ((7 + 4 - 1) / 4) = 0))).length = 4
      ∧ (7 : ℕ) ≠ 4 := by
  refine ⟨by decide, by decide, by decide⟩

/-! #### Heading threshold and classification (C4) -/

theorem headingsOfItems_append (a b : List Item) :
    headingsOfItems (a ++ b) = headingsOfItems a ++ headingsOfItems b := by
  simp [headingsOfItems, List.filterMap_append]

open Classical in
theorem seg_fold_headings (T : ℝ) :
    ∀ (ls : List LineRec) (st : SegSt),
      headingsOfItems ((ls.foldl (segStep T) st).out)
        = headingsOfItems st.out
          ++ (ls.filter (fun l => decide (IsHeadingLine T l))).map LineRec.text := by
  intro ls
  induction ls with
  | nil =>
    intro st
    simp
  | cons l rest ih =>
    intro st
    rw [List.foldl_cons]
    by_cases h : IsHeadingLine T l
    · have hfilter : List.filter (fun l => decide (IsHeadingLine T l)) (l :: rest)
          = l :: List.filter (fun l => decide (IsHeadingLine T l)) rest := by
        rw [List.filter_cons, if_pos (by simpa using h)]
      by_cases hcur : st.cur = []
      · have e1 : segStep T st l = ⟨st.out ++ [Item.topic l.text], []⟩ := by
          simp [segStep, h, hcur]
        rw [e1, ih, hfilter]
        simp [headingsOfItems_append, headingsOfItems]
      · have e1 : segStep T st l
            = ⟨st.out ++ [Item.content st.cur] ++ [Item.topic l.text], []⟩ := by
          simp [segStep, h, hcur]
        rw [e1, ih, hfilter]
        simp [headingsOfItems_append, headingsOfItems]
    · have e1 : segStep T st l = ⟨st.out, st.cur ++ [(l.text, l.minX)]⟩ := by
        simp [segStep, h]
      rw [e1, ih, List.filter_cons, if_neg (by simpa using h)]

open Classical in
theorem buildStructured_headings (T : ℝ) (ls : List LineRec) :
    headingsOfItems (buildStructured T ls)
      = (ls.filter (fun l => decide (IsHeadingLine T l))).map LineRec.text := by
  rw [buildStructured]
  rw [headingsOfItems_append, seg_fold_headings]
  have : headingsOfItems
      (if (List.foldl (segStep T) ⟨[], []⟩ ls).cur ≠ []
        then [Item.content (List.foldl (segStep T) ⟨[], []⟩ ls).cur] else []) = [] := by
    by_cases hc : (List.foldl (segStep T) ⟨[], []⟩ ls).cur ≠ [] <;>
      simp [hc, headingsOfItems]
  rw [this]
  simp [headingsOfItems]

open Classical in
/-- C4: with at least one accumulated sample the frozen threshold equals
the batch mean plus 0.8 times the batch population standard deviation of
the sampled sizes; the headings of the structured sequence built with a
fixed threshold are exactly the lines satisfying the classification rule
(size at least the threshold and text longer than 2 characters), in
order; for the sizes 10, 10, 10, 10, 20 the threshold is exactly 15.2,
the size-20 line classifies as a heading and a size-10 line does not. -/
theorem heading_threshold_spec :
    (∀ xs : List ℚ, xs ≠ [] →
        headingThreshold (welfordFold xs)
          = ((batchMean xs : ℚ) : ℝ) + 0.8 * Real.sqrt ((batchPVar xs : ℚ) : ℝ))
    ∧ (∀ (T : ℝ) (ls : List LineRec),
        headingsOfItems (buildStructured T ls)
          = (ls.filter (fun l => decide (IsHeadingLine T l))).map LineRec.text)
    ∧ headingThreshold (welfordFold sizes5) = 15.2
    ∧ IsHeadingLine 15.2 bigLine
    ∧ ¬ IsHeadingLine 15.2 smallLine := by
  have hmain : ∀ xs : List ℚ, xs ≠ [] →
      headingThreshold (welfordFold xs)
        = ((batchMean xs : ℚ) : ℝ) + 0.8 * Real.sqrt ((batchPVar xs : ℚ) : ℝ) := by
    intro xs hne
    obtain ⟨hn, hm, hv⟩ := welford_refines_batch xs
    rw [headingThreshold, hm, hn]
    rcases Nat.lt_or_ge 1 xs.length with hlen | hlen
    · rw [if_pos hlen, Welford.pstdev, hv]
    · have h1 : xs.length = 1 := by
        have : xs.length ≠ 0 := fun hc => hne (List.length_eq_zero.mp hc)
        omega
      obtain ⟨a, ha⟩ := List.length_eq_one.mp h1
      subst ha
      rw [if_neg (by omega)]
      have hz : batchPVar [a] = 0 := by
        simp [batchPVar, batchMean]
      rw [hz]
      simp
  refine ⟨hmain, buildStructured_headings, ?_, ?_, ?_⟩
  · rw [hmain sizes5 (by simp [sizes5])]
    have h1 : batchMean sizes5 = 12 := by
      rw [batchMean, sizes5]
      norm_num
    have h2 : batchPVar sizes5 = 16 := by
      rw [batchPVar, sizes5, batchMean]
      norm_num
    rw [h1, h2]
    have h3 : Real.sqrt ((16 : ℚ) : ℝ) = 4 := by
      rw [show (((16 : ℚ) : ℝ)) = 4 ^ 2 by norm_num,
        Real.sqrt_sq (by norm_num : (0 : ℝ) ≤ 4)]
    rw [h3]
    norm_num
  · constructor
    · show (15.2 : ℝ) ≤ ((bigLine.size : ℚ) : ℝ)
      rw [show bigLine.size = 20 from rfl]
      norm_num
    · decide
  · intro hc
    have h1 : (15.2 : ℝ) ≤ ((smallLine.size : ℚ) : ℝ) := hc.1
    rw [show smallLine.size = 10 from rfl] at h1
    norm_num at h1

/-- Witness for the heading-threshold theorem at the concrete sizes. -/
theorem heading_threshold_witness :
    headingThreshold (welfordFold sizes5)
      = ((batchMean sizes5 : ℚ) : ℝ) + 0.8 * Real.sqrt ((batchPVar sizes5 : ℚ) : ℝ) :=
  heading_threshold_spec.1 sizes5 (by simp [sizes5])

/-! #### Newline-split lemmas (C3) -/

theorem splitNlChars_ne_nil (l : List Char) : splitNlChars l ≠ [] := by
  induction l with
  | nil => simp [splitNlChars]
  | cons c cs ih =>
    rw [splitNlChars]
    by_cases h : c = '\n'
    · simp [h]
    · rw [if_neg h]
      cases hs : splitNlChars cs with
      | nil => exact absurd hs ih
      | cons f r => simp

theorem splitNl_append_nl (xs ys : List Char) :
    splitNlChars (xs ++ '\n' :: ys) = splitNlChars xs ++ splitNlChars ys := by
  induction xs with
  | nil =>
    simp [splitNlChars]
  | cons c cs ih =>
    by_cases h : c = '\n'
    · subst h
      rw [List.cons_append, splitNlChars, if_pos rfl, ih,
        show splitNlChars ('\n' :: cs) = [] :: splitNlChars cs from by
          rw [splitNlChars, if_pos rfl]]
      rfl
    · rw [List.cons_append, splitNlChars, if_neg h, ih]
      cases hs : splitNlChars cs with
      | nil => exact absurd hs (splitNlChars_ne_nil cs)
      | cons f r =>
        rw [show splitNlChars (c :: cs) = (c :: f) :: r from by
          rw [splitNlChars, if_neg h, hs]]
        simp

theorem splitNl_no_nl (l : List Char) (h : ∀ c ∈ l, ¬ c = '\n') :
    splitNlChars l = [l] := by
  induction l with
  | nil => rfl
  | cons c cs ih =>
    have hc := h c (List.mem_cons_self c cs)
    rw [splitNlChars, if_neg hc, ih (fun x hx => h x (List.mem_cons_of_mem c hx))]

theorem concatAll_append (a b : List String) :
    concatAll (a ++ b) = concatAll a ++ concatAll b := by
  induction a with
  | nil => simp [concatAll]
  | cons s rest ih => simp [concatAll, ih, String.append_assoc]

theorem concatAll_flatMap_parts (us : List Para) :
    concatAll (us.flatMap renderUnitParts) = concatAll (us.map unitChunk) := by
  induction us with
  | nil => rfl
  | cons p rest ih =>
    rw [List.flatMap_cons, List.map_cons, concatAll_append]
    rw [show concatAll (unitChunk p :: List.map unitChunk rest)
        = unitChunk p ++ concatAll (List.map unitChunk rest) from rfl]
    rw [ih, unitChunk]

theorem formatOutput_eq_chunks (items : List Item) :
    formatOutput items = concatAll (chunksOf items) := by
  rw [formatOutput, chunksOf]
  induction items with
  | nil => rfl
  | cons i rest ih =>
    rw [List.flatMap_cons, List.flatMap_cons, concatAll_append, concatAll_append, ih]
    cases i with
    | topic s => rfl
    | content cl =>
      rw [show itemParts (Item.content cl)
          = (joinParagraphLines (blockLines cl)).flatMap renderUnitParts from rfl,
        show itemChunks (Item.content cl)
          = (joinParagraphLines (blockLines cl)).map unitChunk from rfl,
        concatAll_flatMap_parts]

theorem unitChunk_cases (p : Para) :
    unitChunk p = "" ∨ unitChunk p = "- " ++ withPeriod p.text ++ "\n"
      ∨ unitChunk p = withPeriod p.text ++ "\n\n" := by
  rw [unitChunk, renderUnitParts]
  by_cases h1 : (decide (p.text.length < 30) && !p.is_bullet) = true
  · rw [if_pos h1]
    exact Or.inl rfl
  · rw [if_neg h1]
    by_cases h2 : p.is_bullet = true
    · rw [if_pos h2]
      refine Or.inr (Or.inl ?_)
      show "- " ++ (withPeriod p.text ++ ("\n" ++ "")) = "- " ++ withPeriod p.text ++ "\n"
      rw [String.append_empty, String.append_assoc]
    · rw [if_neg h2]
      refine Or.inr (Or.inr ?_)
      show withPeriod p.text ++ ("\n\n" ++ "") = withPeriod p.text ++ "\n\n"
      rw [String.append_empty]

theorem chunk_shape (items : List Item) :
    ∀ ch ∈ chunksOf items, ch = "" ∨ ∃ xs, ch.data = xs ++ ['\n'] := by
  intro ch hch
  rw [chunksOf] at hch
  rcases List.mem_flatMap.mp hch with ⟨i, _, hchi⟩
  cases i with
  | topic s =>
    rw [show itemChunks (Item.topic s) = ["\n<" ++ topicNameOf s ++ ">\n"] from rfl] at hchi
    rcases List.mem_singleton.mp hchi with rfl
    right
    refine ⟨'\n' :: '<' :: ((topicNameOf s).data ++ ['>']), ?_⟩
    rw [String.data_append, String.data_append,
      show ("\n<" : String).data = ['\n', '<'] from rfl,
      show (">\n" : String).data = ['>', '\n'] from rfl]
    simp
  | content cl =>
    rw [show itemChunks (Item.content cl)
        = (joinParagraphLines (blockLines cl)).map unitChunk from rfl] at hchi
    rcases List.mem_map.mp hchi with ⟨p, _, rfl⟩
    rcases unitChunk_cases p with h | h | h
    · exact Or.inl h
    · right
      refine ⟨'-' :: ' ' :: (withPeriod p.text).data, ?_⟩
      rw [h, String.data_append, String.data_append,
        show ("- " : String).data = ['-', ' '] from rfl,
        show ("\n" : String).data = ['\n'] from rfl]
      simp
    · right
      refine ⟨(withPeriod p.text).data ++ ['\n'], ?_⟩
      rw [h, String.data_append,
        show ("\n\n" : String).data = ['\n', '\n'] from rfl]
      simp

theorem linesData_chunks :
    ∀ cs : List String, (∀ ch ∈ cs, ch = "" ∨ ∃ xs, ch.data = xs ++ ['\n']) →
      splitNlChars (concatAll cs).data
        = cs.flatMap (fun ch => (splitNlChars ch.data).dropLast) ++ [[]] := by
  intro cs
  induction cs with
  | nil =>
    intro _
    simp [concatAll, splitNlChars]
  | cons ch rest ih =>
    intro h
    have hch := h ch (List.mem_cons_self ch rest)
    have hrest := fun x hx => h x (List.mem_cons_of_mem ch hx)
    rw [show concatAll (ch :: rest) = ch ++ concatAll rest from rfl, String.data_append]
    rcases hch with hempty | ⟨xs, hxs⟩
    · subst hempty
      rw [show ("" : String).data = [] from rfl, List.nil_append, ih hrest,
        List.flatMap_cons]
      rw [show splitNlChars (("" : String).data) = [[]] from rfl]
      simp
    · rw [hxs, show (xs ++ ['\n']) ++ (concatAll rest).data
          = xs ++ '\n' :: (concatAll rest).data from by simp]
      rw [splitNl_append_nl, ih hrest, List.flatMap_cons]
      have hsp : splitNlChars ch.data = splitNlChars xs ++ [[]] := by
        rw [hxs, show xs ++ ['\n'] = xs ++ '\n' :: ([] : List Char) from rfl,
          splitNl_append_nl]
        rfl
      rw [hsp, List.dropLast_concat]
      simp [List.append_assoc]

/-! #### Strip and marker-line lemmas (C3) -/

theorem dropWhile_append_all {α : Type} (p : α → Bool) (l1 l2 : List α)
    (h : ∀ x ∈ l1, p x = true) : (l1 ++ l2).dropWhile p = l2.dropWhile p := by
  induction l1 with
  | nil => simp
  | cons x t ih =>
    rw [List.cons_append, List.dropWhile_cons, if_pos (h x (List.mem_cons_self x t))]
    exact ih (fun y hy => h y (List.mem_cons_of_mem x hy))

theorem dropWhile_append_cons {α : Type} (p : α → Bool) (l1 l2 : List α)
    (d : α) (r : List α) (h : l1.dropWhile p = d :: r) :
    (l1 ++ l2).dropWhile p = d :: (r ++ l2) := by
  induction l1 with
  | nil => simp at h
  | cons x t ih =>
    rw [List.cons_append, List.dropWhile_cons]
    rw [List.dropWhile_cons] at h
    by_cases hx : p x = true
    · rw [if_pos hx] at h ⊢
      exact ih h
    · rw [if_neg hx] at h ⊢
      injection h with h1 h2
      subst h1
      subst h2
      rfl

theorem dropWhileEnd_concat_of_neg (p : Char → Bool) (l : List Char) (b : Char)
    (hb : p b = false) : dropWhileEnd p (l ++ [b]) = l ++ [b] := by
  rw [dropWhileEnd]
  have h1 : (l ++ [b]).reverse = b :: l.reverse := by simp
  rw [h1, List.dropWhile_cons, if_neg (by simp [hb])]
  simp

theorem stripCharsBy_of_ends (p : Char → Bool) (c b : Char) (xs : List Char)
    (hc : p c = false) (hb : p b = false) :
    stripCharsBy p (c :: (xs ++ [b])) = c :: (xs ++ [b]) := by
  rw [stripCharsBy, List.dropWhile_cons, if_neg (by simp [hc])]
  rw [show c :: (xs ++ [b]) = (c :: xs) ++ [b] from rfl]
  exact dropWhileEnd_concat_of_neg p (c :: xs) b hb

theorem stripCharsBy_head (p : Char → Bool) (c : Char) (l : List Char)
    (hc : p c = false) : ∃ r, stripCharsBy p (c :: l) = c :: r := by
  rw [stripCharsBy, List.dropWhile_cons, if_neg (by simp [hc]), dropWhileEnd,
    List.reverse_cons]
  cases hr : l.reverse.dropWhile p with
  | nil =>
    have hall : ∀ x ∈ l.reverse, p x = true :=
      fun x hx => List.dropWhile_eq_nil_iff.mp hr x hx
    rw [dropWhile_append_all p l.reverse [c] hall, List.dropWhile_cons,
      if_neg (by simp [hc])]
    exact ⟨[], by simp⟩
  | cons d r' =>
    rw [dropWhile_append_cons p l.reverse [c] d r' hr]
    exact ⟨r'.reverse ++ [d], by simp⟩

theorem isMarkerLine_cons_ne (c : Char) (cs : List Char) (h : ¬ c = '<') :
    isMarkerLine (String.mk (c :: cs)) = false := by
  simp [isMarkerLine, h]

theorem markerNameOf_empty : markerNameOf "" = none := rfl

theorem markerNameOf_head (c : Char) (r : List Char) (hcs : isSpaceChar c = false)
    (hcb : ¬ c = '<') : markerNameOf (String.mk (c :: r)) = none := by
  obtain ⟨r', hr'⟩ := stripCharsBy_head isSpaceChar c r hcs
  have hstrip : pyStrip (String.mk (c :: r)) = String.mk (c :: r') := by
    rw [pyStrip, show (String.mk (c :: r)).data = c :: r from rfl, hr']
  simp only [markerNameOf]
  rw [hstrip, isMarkerLine_cons_ne c r' hcb]
  simp

theorem marker_of_goodName (nm : String) (h : goodName nm) :
    markerNameOf (String.mk ('<' :: (nm.data ++ ['>']))) = some nm := by
  obtain ⟨hne, hstr, hchars⟩ := h
  have hstrip : pyStrip (String.mk ('<' :: (nm.data ++ ['>'])))
      = String.mk ('<' :: (nm.data ++ ['>'])) := by
    rw [pyStrip, show (String.mk ('<' :: (nm.data ++ ['>']))).data
        = '<' :: (nm.data ++ ['>']) from rfl,
      stripCharsBy_of_ends isSpaceChar '<' '>' nm.data (by decide) (by decide)]
  have hany : (('<' :: (nm.data ++ ['>'])).any (fun x => decide (x = '\n'))) = false := by
    rw [Bool.eq_false_iff]
    intro hc
    rcases List.any_eq_true.mp hc with ⟨x, hx, hxd⟩
    have hx' : x = '\n' := of_decide_eq_true hxd
    subst hx'
    rcases List.mem_cons.mp hx with he | hx
    · exact absurd he (by decide)
    · rcases List.mem_append.mp hx with hx | hx
      · exact ((hchars _ hx).2.2) rfl
      · rcases List.mem_singleton.mp hx with he
        exact absurd he (by decide)
  have hmk : isMarkerLine (String.mk ('<' :: (nm.data ++ ['>']))) = true := by
    show (decide ('<' = '<') && decide (nm.data ++ ['>'] ≠ [])
        && decide ((nm.data ++ ['>']).getLast? = some '>')
        && !(('<' :: (nm.data ++ ['>'])).any (fun x => decide (x = '\n')))) = true
    rw [hany]
    simp [List.getLast?_concat]
  obtain ⟨d, ds, hdd⟩ : ∃ d ds, nm.data = d :: ds := by
    cases hd : nm.data with
    | nil =>
      exfalso
      exact hne (show nm = "" from by
        have : String.mk nm.data = String.mk [] := by rw [hd]
        simpa using this)
    | cons d ds => exact ⟨d, ds, rfl⟩
  have hd_ne : isAngleChar d = false := by
    have hmem := hchars d (by rw [hdd]; exact List.mem_cons_self d ds)
    simp [isAngleChar, hmem.1, hmem.2.1]
  have hrevne : nm.data.reverse ≠ [] := by
    rw [hdd]
    simp
  obtain ⟨e, es, he⟩ : ∃ e es, nm.data.reverse = e :: es := by
    cases hr : nm.data.reverse with
    | nil => exact absurd hr hrevne
    | cons e es => exact ⟨e, es, rfl⟩
  have he_mem : e ∈ nm.data := by
    rw [← List.mem_reverse, he]
    exact List.mem_cons_self e es
  have he_ne : isAngleChar e = false := by
    have hmem := hchars e he_mem
    simp [isAngleChar, hmem.1, hmem.2.1]
  have hangles : stripAngles (String.mk ('<' :: (nm.data ++ ['>']))) = nm := by
    rw [stripAngles, show (String.mk ('<' :: (nm.data ++ ['>']))).data
        = '<' :: (nm.data ++ ['>']) from rfl]
    rw [stripCharsBy, List.dropWhile_cons, if_pos (by decide)]
    rw [hdd, List.cons_append, List.dropWhile_cons, if_neg (by simp [hd_ne])]
    rw [dropWhileEnd]
    have hrev2 : (d :: (ds ++ ['>'])).reverse = '>' :: (d :: ds).reverse := by
      rw [show d :: (ds ++ ['>']) = (d :: ds) ++ ['>'] from rfl]
      simp
    rw [hrev2, List.dropWhile_cons, if_pos (by decide)]
    rw [show (d :: ds).reverse = e :: es from by rw [← hdd, he]]
    rw [List.dropWhile_cons, if_neg (by simp [he_ne])]
    have : (e :: es).reverse = nm.data := by
      rw [← he, List.reverse_reverse]
    rw [this]
  simp only [markerNameOf]
  rw [hstrip, hmk]
  simp only [if_true]
  rw [hangles, hstr, if_neg hne]

theorem withPeriod_chars (t : String) :
    ∀ c ∈ (withPeriod t).data, c ∈ t.data ∨ c = '.' := by
  rw [withPeriod]
  by_cases h : lastAlnum t = true
  · rw [if_pos h]
    intro c hc
    rw [String.data_append] at hc
    rcases List.mem_append.mp hc with hc | hc
    · exact Or.inl hc
    · right
      simpa using hc
  · rw [if_neg h]
    exact fun c hc => Or.inl hc

theorem withPeriod_no_nl (t : String) (h : ∀ c ∈ t.data, ¬ c = '\n') :
    ∀ c ∈ (withPeriod t).data, ¬ c = '\n' := by
  intro c hc
  rcases withPeriod_chars t c hc with hm | hd
  · exact h c hm
  · subst hd
    decide

theorem filterMap_marker_topic (nm : String) (h : goodName nm) :
    List.filterMap (fun cs => markerNameOf (String.mk cs))
        ((splitNlChars ("\n<" ++ nm ++ ">\n").data).dropLast) = [nm] := by
  have hdata : ("\n<" ++ nm ++ ">\n").data
      = [] ++ '\n' :: (('<' :: (nm.data ++ ['>'])) ++ '\n' :: []) := by
    rw [String.data_append, String.data_append,
      show ("\n<" : String).data = ['\n', '<'] from rfl,
      show (">\n" : String).data = ['>', '\n'] from rfl]
    simp
  rw [hdata, splitNl_append_nl, splitNl_append_nl]
  have hmid : splitNlChars ('<' :: (nm.data ++ ['>'])) = ['<' :: (nm.data ++ ['>'])] := by
    apply splitNl_no_nl
    intro c hc
    rcases List.mem_cons.mp hc with rfl | hc
    · decide
    · rcases List.mem_append.mp hc with hc | hc
      · exact (h.2.2 c hc).2.2
      · rcases List.mem_singleton.mp hc with rfl
        decide
  rw [hmid, show splitNlChars ([] : List Char) = [[]] from rfl]
  rw [show ([[]] : List (List Char)) ++ (['<' :: (nm.data ++ ['>'])] ++ [[]])
      = [[], '<' :: (nm.data ++ ['>'])] ++ [[]] from by simp,
    List.dropLast_concat]
  rw [show ([[], '<' :: (nm.data ++ ['>'])] : List (List Char))
      = [] :: ['<' :: (nm.data ++ ['>'])] from rfl]
  rw [List.filterMap_cons, List.filterMap_cons]
  rw [show markerNameOf (String.mk []) = none from rfl, marker_of_goodName nm h]
  rfl

theorem filterMap_marker_unit (p : Para)
    (hnl : ∀ c ∈ p.text.data, ¬ c = '\n')
    (hmk : p.is_bullet = false → 30 ≤ p.text.length →
        isMarkerLine (pyStrip (withPeriod p.text)) = false) :
    List.filterMap (fun cs => markerNameOf (String.mk cs))
        ((splitNlChars (unitChunk p).data).dropLast) = [] := by
  have hwp : ∀ c ∈ (withPeriod p.text).data, ¬ c = '\n' := withPeriod_no_nl p.text hnl
  rw [unitChunk, renderUnitParts]
  by_cases h1 : (decide (p.text.length < 30) && !p.is_bullet) = true
  · rw [if_pos h1]
    rfl
  · rw [if_neg h1]
    by_cases h2 : p.is_bullet = true
    · rw [if_pos h2]
      have hdata : (concatAll ["- ", withPeriod p.text, "\n"]).data
          = ('-' :: ' ' :: (withPeriod p.text).data) ++ '\n' :: [] := by
        show ("- " ++ (withPeriod p.text ++ ("\n" ++ ""))).data = _
        rw [String.append_empty, String.data_append, String.data_append,
          show ("- " : String).data = ['-', ' '] from rfl,
          show ("\n" : String).data = ['\n'] from rfl]
        simp
      rw [hdata, splitNl_append_nl]
      have hline : splitNlChars ('-' :: ' ' :: (withPeriod p.text).data)
          = ['-' :: ' ' :: (withPeriod p.text).data] := by
        apply splitNl_no_nl
        intro c hc
        rcases List.mem_cons.mp hc with rfl | hc
        · decide
        · rcases List.mem_cons.mp hc with rfl | hc
          · decide
          · exact hwp c hc
      rw [hline, show splitNlChars ([] : List Char) = [[]] from rfl,
        List.dropLast_concat, List.filterMap_cons]
      rw [markerNameOf_head '-' (' ' :: (withPeriod p.text).data) (by decide) (by decide)]
      rfl
    · rw [if_neg h2]
      have hb : p.is_bullet = false := by
        cases hv : p.is_bullet
        · rfl
        · exact absurd hv h2
      have hlen : 30 ≤ p.text.length := by
        rw [hb] at h1
        simp at h1
        omega
      have hmk' := hmk hb hlen
      have hdata : (concatAll [withPeriod p.text, "\n\n"]).data
          = (withPeriod p.text).data ++ '\n' :: ('\n' :: []) := by
        show (withPeriod p.text ++ ("\n\n" ++ "")).data = _
        rw [String.append_empty, String.data_append,
          show ("\n\n" : String).data = ['\n', '\n'] from rfl]
      rw [hdata, splitNl_append_nl]
      have hline : splitNlChars ((withPeriod p.text).data) = [(withPeriod p.text).data] :=
        splitNl_no_nl _ hwp
      rw [hline, show splitNlChars ('\n' :: ([] : List Char)) = [[], []] from rfl]
      rw [show ([(withPeriod p.text).data] ++ [[], ([] : List Char)])
          = [(withPeriod p.text).data, []] ++ [[]] from by simp,
        List.dropLast_concat, List.filterMap_cons, List.filterMap_cons]
      rw [show String.mk (withPeriod p.text).data = withPeriod p.text from rfl]
      rw [show markerNameOf (withPeriod p.text) = none from by
        simp [markerNameOf, hmk']]
      rfl

theorem filterMap_marker_units (us : List Para)
    (h : ∀ p ∈ us, (∀ c ∈ p.text.data, ¬ c = '\n')
        ∧ (p.is_bullet = false → 30 ≤ p.text.length →
            isMarkerLine (pyStrip (withPeriod p.text)) = false)) :
    List.filterMap (fun cs => markerNameOf (String.mk cs))
        ((us.map unitChunk).flatMap (fun ch => (splitNlChars ch.data).dropLast)) = [] := by
  induction us with
  | nil => rfl
  | cons p rest ih =>
    rw [List.map_cons, List.flatMap_cons, List.filterMap_append]
    have hp := h p (List.mem_cons_self p rest)
    rw [filterMap_marker_unit p hp.1 hp.2,
      ih (fun q hq => h q (List.mem_cons_of_mem p hq))]
    rfl

theorem filterMap_marker_items (its : List Item)
    (hn : ∀ s, Item.topic s ∈ its → goodName (topicNameOf s))
    (hb : ∀ cl, Item.content cl ∈ its → goodBlock cl) :
    List.filterMap (fun cs => markerNameOf (String.mk cs))
        ((chunksOf its).flatMap (fun ch => (splitNlChars ch.data).dropLast))
      = (headingsOfItems its).map topicNameOf := by
  induction its with
  | nil => rfl
  | cons i rest ih =>
    rw [show chunksOf (i :: rest) = itemChunks i ++ chunksOf rest from by
        simp [chunksOf],
      List.flatMap_append, List.filterMap_append]
    have ihr := ih (fun s hs => hn s (List.mem_cons_of_mem i hs))
      (fun cl hc => hb cl (List.mem_cons_of_mem i hc))
    cases i with
    | topic s =>
      rw [show itemChunks (Item.topic s) = ["\n<" ++ topicNameOf s ++ ">\n"] from rfl]
      rw [show (["\n<" ++ topicNameOf s ++ ">\n"] : List String).flatMap
            (fun ch => (splitNlChars ch.data).dropLast)
          = (splitNlChars (("\n<" ++ topicNameOf s ++ ">\n") : String).data).dropLast from by
        simp]
      rw [filterMap_marker_topic (topicNameOf s)
        (hn s (List.mem_cons_self (Item.topic s) rest)), ihr]
      rfl
    | content cl =>
      rw [show itemChunks (Item.content cl)
          = (joinParagraphLines (blockLines cl)).map unitChunk from rfl]
      rw [filterMap_marker_units (joinParagraphLines (blockLines cl))
        (hb cl (List.mem_cons_self (Item.content cl) rest)), ihr]
      rfl

theorem keysAfter_of_nodup :
    ∀ (ns ks : List String), ns.Nodup → (∀ n ∈ ns, n ∉ ks) → keysAfter ks ns = ks ++ ns := by
  intro ns
  induction ns with
  | nil =>
    intro ks _ _
    simp [keysAfter]
  | cons n t ih =>
    intro ks hnd hns
    rw [keysAfter, if_neg (hns n (List.mem_cons_self n t))]
    rw [ih (ks ++ [n]) (List.Nodup.of_cons hnd) ?_]
    · simp
    · intro m hm hmem
      rcases List.mem_append.mp hmem with hk | hk
      · exact hns m (List.mem_cons_of_mem n hm) hk
      · rcases List.mem_singleton.mp hk with rfl
        exact (List.nodup_cons.mp hnd).1 hm

/-- C3 (amended): for every structured sequence whose surviving headings
have round-trip-safe names (non-empty after tag removal, stripped, free of
angle brackets and newlines) and whose surviving blocks render no line
that matches the marker pattern, re-parsing the formatter output yields
one mapping entry per DISTINCT surviving uppercased heading name, keyed in
first-seen order; when the surviving names are pairwise distinct this is
exactly the surviving heading sequence, but a repeated surviving heading
collapses into the single entry of its first occurrence rather than
producing one entry per heading. -/
theorem roundtrip_topic_names (tok : String → List String) (items : List Item)
    (hname : ∀ s, Item.topic s ∈ filterContent items → goodName (topicNameOf s))
    (hbody : ∀ cl, Item.content cl ∈ filterContent items → goodBlock cl) :
    keysOf (splitIntoTopics tok (formatOutput (filterContent items)))
      = keysAfter [] ((headingsOfItems (filterContent items)).map topicNameOf)
    ∧ (((headingsOfItems (filterContent items)).map topicNameOf).Nodup →
        keysOf (splitIntoTopics tok (formatOutput (filterContent items)))
          = (headingsOfItems (filterContent items)).map topicNameOf) := by
  have hmain : keysOf (splitIntoTopics tok (formatOutput (filterContent items)))
      = keysAfter [] ((headingsOfItems (filterContent items)).map topicNameOf) := by
    rw [splitIntoTopics, splitTopicsList_keys, pySplitNl, List.filterMap_map]
    rw [formatOutput_eq_chunks, linesData_chunks (chunksOf (filterContent items))
      (chunk_shape (filterContent items))]
    rw [List.filterMap_append]
    rw [show List.filterMap (markerNameOf ∘ String.mk) [([] : List Char)]
        = [] from rfl]
    rw [show (List.filterMap (markerNameOf ∘ String.mk)
          ((chunksOf (filterContent items)).flatMap
            (fun ch => (splitNlChars ch.data).dropLast)))
        = List.filterMap (fun cs => markerNameOf (String.mk cs))
          ((chunksOf (filterContent items)).flatMap
            (fun ch => (splitNlChars ch.data).dropLast)) from rfl]
    rw [filterMap_marker_items (filterContent items) hname hbody]
    simp
  refine ⟨hmain, fun hnd => ?_⟩
  rw [hmain, keysAfter_of_nodup _ [] hnd (by simp)]
  simp

/-- Witness for the round-trip theorem at a concrete structured sequence
with one surviving heading. -/
theorem roundtrip_topic_names_witness :
    keysOf (splitIntoTopics tok0 (formatOutput (filterContent witnessItemsC3)))
      = keysAfter [] ((headingsOfItems (filterContent witnessItemsC3)).map topicNameOf) :=
  (roundtrip_topic_names tok0 witnessItemsC3
    (by
      intro s hs
      have hf : filterContent witnessItemsC3
          = [Item.topic "good topic", Item.content cl6] := by decide
      rw [hf] at hs
      rcases List.mem_cons.mp hs with he | hs
      · cases he
        decide
      · rcases List.mem_singleton.mp hs with he
        cases he)
    (by
      intro cl hc
      have hf : filterContent witnessItemsC3
          = [Item.topic "good topic", Item.content cl6] := by decide
      rw [hf] at hc
      rcases List.mem_cons.mp hc with he | hc
      · cases he
      · rcases List.mem_singleton.mp hc with he
        cases he
        intro p hp
        have hu : joinParagraphLines (blockLines cl6)
            = [⟨"alpha beta gamma delta epsilon zeta eta theta iota kappa lambda mu", false⟩] := by
          decide
        rw [hu] at hp
        rcases List.mem_singleton.mp hp with rfl
        constructor
        · decide
        · intro _ _
          decide)).1

/-- Counterexample to C3 as stated: a structured sequence with two
surviving headings of the same text yields a single mapping entry, not one
entry per surviving heading, so the key sequence differs from the
uppercased surviving heading sequence. -/
theorem roundtrip_cex :
    keysOf (splitIntoTopics tok0 (formatOutput (filterContent cexItemsC3))) = ["GOOD TOPIC"]
      ∧ (headingsOfItems (filterContent cexItemsC3)).map topicNameOf
          = ["GOOD TOPIC", "GOOD TOPIC"]
      ∧ (["GOOD TOPIC"] : List String) ≠ ["GOOD TOPIC", "GOOD TOPIC"] := by
  refine ⟨by decide, by decide, by decide⟩

end NotesSummarizer
